import Mathlib

set_option linter.unusedSectionVars false

/-!
Verification of the Fast Marching Method core of the ITK FastMarching module
(`Modules/Filtering/FastMarching`).

The repository snapshot contains the test driver `itkFastMarchingTest.cxx` and
the header `itkFastMarchingUpwindGradientImageFilter.h`.  The bodies of the
solver (`itkFastMarchingImageFilter.hxx` and the `.hxx` of the upwind gradient
filter) are not part of the snapshot, so the solver itself is modelled from
the specification (each such definition carries a `Modelled from the spec:`
doc comment).  The inline member functions of
`itkFastMarchingUpwindGradientImageFilter.h` are embedded directly from the
source.

The embedding is polymorphic in the scalar type (any `LinearOrderedField`)
and in the square-root function used by the quadratic solve; the C++ code
computes with floating point numbers, which this embedding idealises as an
ordered field together with an abstract square root.
-/

namespace ITKFastMarching

/-- Per-index labels, named after `FastMarchingImageFilterEnums::Label`
(streamed in the test file): `FarPoint`, `AlivePoint`, `TrialPoint`,
`InitialTrialPoint`, `OutsidePoint`. -/
inductive FMLabel where
  | FarPoint
  | AlivePoint
  | TrialPoint
  | InitialTrialPoint
  | OutsidePoint
deriving DecidableEq

open FMLabel

/-- Target-reached modes, mirroring the enum of
`itkFastMarchingUpwindGradientImageFilter.h`
(`NoTargets`, `OneTarget`, `SomeTargets`, `AllTargets`); `SomeTargets`
carries its count. -/
inductive TargetMode where
  | noTargets
  | oneTarget
  | someTargets (n : ℕ)
  | allTargets
deriving DecidableEq

/-- A grid index: one integer coordinate per dimension. -/
abbrev Idx := List ℤ

variable {α : Type} [LinearOrderedField α]

/-- Modelled from the spec: the run configuration of the solver (§6): alive
and trial seed nodes, speed field, stopping value, gradient flag, target set,
target mode and offset, together with the grid geometry (size and spacing)
owned by the external grid adapter. `largeValue` is the sentinel stored in
the arrival-time field for untouched indices. -/
structure FMConfig (α : Type) where
  size : List ℕ
  spacing : List α
  speed : Idx → α
  stoppingValue : α
  largeValue : α
  aliveSeeds : List (Idx × α)
  trialSeeds : List (Idx × α)
  targets : List Idx
  mode : TargetMode
  offset : α
  generateGradient : Bool

/-- Dimension of the grid (length of the size vector). -/
def dim (cfg : FMConfig α) : ℕ := cfg.size.length

/-- Modelled from the spec: `isInBounds` of the grid adapter contract (§4.1):
an index is in bounds when it has one coordinate per dimension and each
coordinate `i_d` satisfies `0 ≤ i_d < size_d`. -/
def inBounds (cfg : FMConfig α) (i : Idx) : Bool :=
  i.length = cfg.size.length &&
    (i.zip cfg.size).all fun p => decide (0 ≤ p.1) && decide (p.1 < (p.2 : ℤ))

/-- The axis-plus neighbor of `i` along axis `d`. -/
def axPlus (i : Idx) (d : ℕ) : Idx := i.set d (i.getD d 0 + 1)

/-- The axis-minus neighbor of `i` along axis `d`. -/
def axMinus (i : Idx) (d : ℕ) : Idx := i.set d (i.getD d 0 - 1)

/-- Modelled from the spec: `neighbors` of the grid adapter contract (§4.1):
the `2·dimension` axis-aligned neighbors (axis ± 1 per dimension). -/
def neighbors (cfg : FMConfig α) (i : Idx) : List Idx :=
  (List.range (dim cfg)).flatMap fun d => [axPlus i d, axMinus i d]

/-- Grid spacing along axis `d` (defaulting to 1). -/
def spacingAt (cfg : FMConfig α) (d : ℕ) : α := cfg.spacing.getD d 1

/-- Modelled from the spec: for a node `y` being updated and an axis `d`, the
pair `(a_d, h_d)` where `a_d` is the minimum arrival time among the two
axis-neighbors of `y` along `d` that are already Alive and in bounds, and
`h_d` is the spacing along `d`; `none` when no axis-neighbor qualifies
(§4.3, upwind quadratic update). -/
def axisMin (cfg : FMConfig α) (label : Idx → FMLabel) (time : Idx → α)
    (y : Idx) (d : ℕ) : Option (α × α) :=
  let cands := ([axPlus y d, axMinus y d]).filter fun z =>
    inBounds cfg z && decide (label z = AlivePoint)
  match cands.map time with
  | [] => none
  | v :: vs => some (vs.foldl min v, spacingAt cfg d)

/-- Modelled from the spec: the axes contributing a term to the discretized
Eikonal relation: those with at least one Alive axis-neighbor (§4.3). -/
def availableAxes (cfg : FMConfig α) (label : Idx → FMLabel) (time : Idx → α)
    (y : Idx) : List (α × α) :=
  (List.range (dim cfg)).filterMap (axisMin cfg label time y)

/-- Leading quadratic coefficient `Σ_d 1/h_d²` of the discretized Eikonal
relation over an axis set. -/
def qA (axes : List (α × α)) : α := (axes.map fun p => 1 / p.2 ^ 2).sum

/-- Linear quadratic coefficient `−2 Σ_d a_d/h_d²`. -/
def qB (axes : List (α × α)) : α := (axes.map fun p => -2 * p.1 / p.2 ^ 2).sum

/-- Constant quadratic coefficient `Σ_d a_d²/h_d² − 1/F²`. -/
def qC (axes : List (α × α)) (rhs : α) : α :=
  (axes.map fun p => p.1 ^ 2 / p.2 ^ 2).sum - rhs

/-- Drop one axis whose value `a_d` is maximal (used when the discriminant of
the quadratic is negative, so the axis set must shrink before re-solving). -/
def dropMax (axes : List (α × α)) : List (α × α) :=
  match axes with
  | [] => []
  | p :: ps =>
    let m := ps.foldl (fun acc q => max acc q.1) p.1
    (p :: ps).eraseP fun q => decide (q.1 = m)

/-- Modelled from the spec: the causal quadratic solve of §4.3: solve
`A·T² + B·T + C = 0` over the current axis subset and take the root
`T = (−B + √disc)/(2A)`; retain only axes whose value lies strictly below
`T` (the causality check) and re-solve with the reduced axis set when some
axis fails; when the discriminant is negative the axis with the largest
value is dropped first (§9 allows any reasonable iterative pruning).  `rt`
is the square-root function; the first argument is recursion fuel. -/
def causalSolve (rt : α → α) : ℕ → List (α × α) → α → Option α
  | 0, _, _ => none
  | fuel + 1, axes, rhs =>
    if axes.isEmpty then none
    else
      let A := qA axes
      let B := qB axes
      let C := qC axes rhs
      let disc := B ^ 2 - 4 * A * C
      if disc < 0 then causalSolve rt fuel (dropMax axes) rhs
      else
        let T := (-B + rt disc) / (2 * A)
        let keep := axes.filter fun p => decide (p.1 < T)
        if keep.length = axes.length then some T
        else causalSolve rt fuel keep rhs

/-- Modelled from the spec: the upwind quadratic update of §4.3: the new
candidate tentative value for a neighbor index `y`, the smallest positive
root of `Σ_d (max(T − a_d, 0))²/h_d² = 1/F(y)²` over the causally valid
axes; `none` when no axis contributes. -/
def updateValue (cfg : FMConfig α) (rt : α → α) (label : Idx → FMLabel)
    (time : Idx → α) (y : Idx) : Option α :=
  let axes := availableAxes cfg label time y
  causalSolve rt axes.length axes (1 / cfg.speed y ^ 2)

/-- Modelled from the spec: whether axis-neighbor `z` qualifies for the
upwind difference at `x` (§4.4): in bounds, itself Alive or Outside, and
with arrival time larger than the node's own value. -/
def qualifies (cfg : FMConfig α) (label : Idx → FMLabel) (time : Idx → α)
    (x z : Idx) : Bool :=
  inBounds cfg z &&
    (decide (label z = AlivePoint) || decide (label z = OutsidePoint)) &&
    decide (time x < time z)

/-- Modelled from the spec: one component of the upwind gradient (§4.4): a
one-sided finite difference toward the in-bounds axis-neighbor that is Alive
or Outside and has arrival time larger than the node's own value; when both
axis-neighbors qualify the one with the larger-magnitude difference is used;
zero when neither qualifies. -/
def gradComponent (cfg : FMConfig α) (label : Idx → FMLabel) (time : Idx → α)
    (x : Idx) (d : ℕ) : α :=
  let h := spacingAt cfg d
  let xp := axPlus x d
  let xm := axMinus x d
  let gp := (time xp - time x) / h
  let gm := (time x - time xm) / h
  if qualifies cfg label time x xp && qualifies cfg label time x xm then
    (if |gm| ≤ |gp| then gp else gm)
  else if qualifies cfg label time x xp then gp
  else if qualifies cfg label time x xm then gm
  else 0

/-- Modelled from the spec: the Gradient Extractor (§4.4): one upwind
component per axis. -/
def computeGradient (cfg : FMConfig α) (label : Idx → FMLabel)
    (time : Idx → α) (x : Idx) : List α :=
  (List.range (dim cfg)).map (gradComponent cfg label time x)

/-- Modelled from the spec: the solver state: label field, arrival-time
field, narrow-band queue (index/tentative-value pairs), extraction trace,
reached targets, latched target value, last produced arrival time, and the
gradient field (§3). -/
structure FMState (α : Type) where
  label : Idx → FMLabel
  time : Idx → α
  queue : List (Idx × α)
  trace : List (Idx × α)
  reached : List Idx
  latch : Option α
  lastValue : α
  grad : Idx → List α

/-- Keep the entry with the smaller tentative value (the earlier entry on
ties). -/
def minFun (b x : Idx × α) : Idx × α := if x.2 < b.2 then x else b

/-- The queue entry with the smallest tentative value (first such entry on
ties); `none` on an empty queue. -/
def minEntry (q : List (Idx × α)) : Option (Idx × α) :=
  match q with
  | [] => none
  | e :: es => some (es.foldl minFun e)

/-- Modelled from the spec: queue insert / decrease-key (§4.3 step 5): a new
index is appended with its candidate value; an index already present has its
key replaced only when the candidate is smaller (a Trial value only ever
decreases). -/
def insertOrDecrease (q : List (Idx × α)) (y : Idx) (T : α) : List (Idx × α) :=
  if q.any fun e => decide (e.1 = y) then
    q.map fun e => if e.1 = y ∧ T < e.2 then (y, T) else e
  else q ++ [(y, T)]

/-- Modelled from the spec: the reached-count threshold of the Target-Stop
Controller (§4.5): 1 for OneTarget, the configured count for SomeTargets,
the full target set size for AllTargets, and none for NoTargets (which
never stops early). -/
def threshold (cfg : FMConfig α) : Option ℕ :=
  match cfg.mode with
  | TargetMode.noTargets => none
  | TargetMode.oneTarget => some 1
  | TargetMode.someTargets n => some n
  | TargetMode.allTargets => some cfg.targets.length

/-- Modelled from the spec: the termination test of §4.3 step 1 / §4.5:
stop when the queue is empty; otherwise, once a target value `v` is latched
stop when the minimum tentative value exceeds `v + offset` (this subsumes
and replaces the plain stopping-value test), and before latching stop when
the minimum tentative value exceeds the stopping value. -/
def stopNow (cfg : FMConfig α) (s : FMState α) : Bool :=
  match minEntry s.queue with
  | none => true
  | some e =>
    match s.latch with
    | some v => decide (v + cfg.offset < e.2)
    | none => decide (cfg.stoppingValue < e.2)

/-- Modelled from the spec: §4.3 step 2: remove the extracted entry from the
queue, set the index's arrival time and label it Alive, append it to the
extraction trace and record the last produced value. -/
def freeze (s : FMState α) (x : Idx) (v : α) : FMState α :=
  { s with
    queue := s.queue.eraseP fun e => decide (e.1 = x)
    label := fun i => if i = x then AlivePoint else s.label i
    time := fun i => if i = x then v else s.time i
    trace := s.trace ++ [(x, v)]
    lastValue := v }

/-- Modelled from the spec: §4.3 step 3: when gradient generation is
enabled, store the upwind gradient at the just-frozen index. -/
def gradPhase (cfg : FMConfig α) (s : FMState α) (x : Idx) : FMState α :=
  if cfg.generateGradient then
    { s with grad := fun i =>
        if i = x then computeGradient cfg s.label s.time x else s.grad i }
  else s

/-- Modelled from the spec: §4.5: when the frozen index is an unreached
member of the target set, add it to the reached set; when the reached count
first satisfies the mode's threshold, latch the target value. -/
def targetPhase (cfg : FMConfig α) (s : FMState α) (x : Idx) (v : α) :
    FMState α :=
  if decide (x ∈ cfg.targets) && decide (x ∉ s.reached) then
    let r := s.reached ++ [x]
    let l :=
      match s.latch, threshold cfg with
      | none, some n => if n ≤ r.length then some v else none
      | l0, _ => l0
    { s with reached := r, latch := l }
  else s

/-- Modelled from the spec: §4.3 step 5, for one neighbor `y`: when `y` is
in bounds and not Alive or Outside, compute the candidate tentative value;
on success label a Far node Trial and insert, or decrease the key of a Trial
node; when no axis contributes the neighbor is left untouched. -/
def processNeighbor (cfg : FMConfig α) (rt : α → α) (s : FMState α)
    (y : Idx) : FMState α :=
  if inBounds cfg y && !(decide (s.label y = AlivePoint)) &&
      !(decide (s.label y = OutsidePoint)) then
    match updateValue cfg rt s.label s.time y with
    | none => s
    | some T =>
      { s with
        label := fun i =>
          if i = y ∧ s.label y = FarPoint then TrialPoint else s.label i
        queue := insertOrDecrease s.queue y T }
  else s

/-- Modelled from the spec: §4.3 step 5 over all neighbors of the frozen
index. -/
def expand (cfg : FMConfig α) (rt : α → α) (s : FMState α) (x : Idx) :
    FMState α :=
  (neighbors cfg x).foldl (processNeighbor cfg rt) s

/-- Modelled from the spec: one iteration of the main loop of §4.3 (steps
2–5): extract the minimum, freeze it, extract its gradient, run the target
check, and update its neighbors.  Identity on an empty queue. -/
def step (cfg : FMConfig α) (rt : α → α) (s : FMState α) : FMState α :=
  match minEntry s.queue with
  | none => s
  | some (x, v) =>
    expand cfg rt (targetPhase cfg (gradPhase cfg (freeze s x v) x) x v) x

/-- One guarded loop iteration: identity once the termination test of §4.3
step 1 holds. -/
def guardedStep (cfg : FMConfig α) (rt : α → α) (s : FMState α) : FMState α :=
  if stopNow cfg s = true then s else step cfg rt s

/-- The main loop, driven by fuel. -/
def runner (cfg : FMConfig α) (rt : α → α) : ℕ → FMState α → FMState α
  | 0, s => s
  | f + 1, s => runner cfg rt f (guardedStep cfg rt s)

/-- Fuel sufficient to reach a stopped state: one more than the number of
in-bounds grid indices. -/
def totalFuel (cfg : FMConfig α) : ℕ := cfg.size.prod + 1

/-- Modelled from the spec: the pre-seeding state (§4.2): every index starts
Far except Outside ones (non-positive speed); arrival times hold the
sentinel. -/
def baseState (cfg : FMConfig α) : FMState α :=
  { label := fun i => if cfg.speed i ≤ 0 then OutsidePoint else FarPoint
    time := fun _ => cfg.largeValue
    queue := []
    trace := []
    reached := []
    latch := none
    lastValue := 0
    grad := fun _ => [] }

/-- Modelled from the spec: apply one Alive seed node (§4.2): label it Alive
with its supplied arrival time taken verbatim. -/
def seedAlive (st : FMState α) (p : Idx × α) : FMState α :=
  { st with
    label := fun i => if i = p.1 then AlivePoint else st.label i
    time := fun i => if i = p.1 then p.2 else st.time i }

/-- Modelled from the spec: apply one Trial seed node (§4.2): label it
InitialTrial with its supplied tentative value and insert it into the
narrow-band queue. -/
def seedTrial (st : FMState α) (p : Idx × α) : FMState α :=
  { st with
    label := fun i => if i = p.1 then InitialTrialPoint else st.label i
    time := fun i => if i = p.1 then p.2 else st.time i
    queue := insertOrDecrease st.queue p.1 p.2 }

/-- Modelled from the spec: extract the gradient of one Alive seed node at
initialization (§4.2). -/
def seedGrad (cfg : FMConfig α) (st : FMState α) (p : Idx × α) : FMState α :=
  { st with grad := fun i =>
      if i = p.1 then computeGradient cfg st.label st.time p.1
      else st.grad i }

/-- Modelled from the spec: initialization (§4.2): all indices start Far
except Outside ones (non-positive speed); in-bounds Alive seeds get their
supplied arrival time verbatim; in-bounds Trial seeds are labeled
InitialTrial, valued, and inserted into the queue; out-of-bounds seeds are
silently ignored (§4.1); when gradient generation is enabled the gradient of
each in-bounds Alive seed is extracted immediately. -/
def initState (cfg : FMConfig α) : FMState α :=
  let s1 := (cfg.aliveSeeds.filter fun p => inBounds cfg p.1).foldl
    seedAlive (baseState cfg)
  let s2 := (cfg.trialSeeds.filter fun p => inBounds cfg p.1).foldl
    seedTrial s1
  if cfg.generateGradient then
    (cfg.aliveSeeds.filter fun p => inBounds cfg p.1).foldl (seedGrad cfg) s2
  else s2

/-- Modelled from the spec: a complete run (§6): initialize, then iterate
the main loop to termination. -/
def run (cfg : FMConfig α) (rt : α → α) : FMState α :=
  runner cfg rt (totalFuel cfg) (initState cfg)

/-- Modelled from the spec: `GetTargetValue` (header lines 167–171): the
arrival time of the latched stop condition; when no value was latched (in
particular under NoTargets) the last Eikonal solution value generated. -/
def getTargetValue (s : FMState α) : α :=
  match s.latch with
  | some v => v
  | none => s.lastValue

end ITKFastMarching

namespace ITKFastMarching.UG

/-!
Embedding of the inline member functions of
`itkFastMarchingUpwindGradientImageFilter.h` (in the source snapshot).  The
enum `{ NoTargets, OneTarget, SomeTargets, AllTargets }` is a plain C++
unscoped enum, so its values are the integers 0–3, stored in the `int` field
`m_TargetReachedMode`; `m_NumberOfTargets` is a `SizeValueType`.
-/

/-- Enum value `NoTargets` (= 0). -/
def NoTargets : ℤ := 0

/-- Enum value `OneTarget` (= 1). -/
def OneTarget : ℤ := 1

/-- Enum value `SomeTargets` (= 2). -/
def SomeTargets : ℤ := 2

/-- Enum value `AllTargets` (= 3). -/
def AllTargets : ℤ := 3

/-- The private state of `FastMarchingUpwindGradientImageFilter` relevant to
the target-mode setters: `m_TargetReachedMode` and `m_NumberOfTargets`
(header lines 219, 223). -/
structure FilterState where
  targetReachedMode : ℤ
  numberOfTargets : ℕ

/-- `itkSetMacro(TargetReachedMode, int)` (header line 149): assign the
member. -/
def SetTargetReachedMode (s : FilterState) (m : ℤ) : FilterState :=
  { s with targetReachedMode := m }

/-- `SetTargetReachedModeToNoTargets` (header lines 151–152). -/
def SetTargetReachedModeToNoTargets (s : FilterState) : FilterState :=
  SetTargetReachedMode s NoTargets

/-- `SetTargetReachedModeToOneTarget` (header lines 153–154). -/
def SetTargetReachedModeToOneTarget (s : FilterState) : FilterState :=
  SetTargetReachedMode s OneTarget

/-- `SetTargetReachedModeToSomeTargets` (header lines 155–159): set the mode
to `SomeTargets` and assign `m_NumberOfTargets`. -/
def SetTargetReachedModeToSomeTargets (s : FilterState) (n : ℕ) : FilterState :=
  let s1 := SetTargetReachedMode s SomeTargets
  { s1 with numberOfTargets := n }

/-- `SetTargetReachedModeToAllTargets` (header lines 161–162): set only the
mode. -/
def SetTargetReachedModeToAllTargets (s : FilterState) : FilterState :=
  SetTargetReachedMode s AllTargets

/-- `itkGetConstReferenceMacro(NumberOfTargets, SizeValueType)` (header
lines 164–165). -/
def GetNumberOfTargets (s : FilterState) : ℕ := s.numberOfTargets

end ITKFastMarching.UG

namespace ITKFastMarching

variable {α : Type} [LinearOrderedField α]

/-- The property asserted by the gradient-extraction claim: the step stores
at the frozen node the gradient computed from the post-freeze fields, and
each component of `computeGradient` follows the upwind one-sided-difference
selection rule. -/
def GradientClaim (cfg : FMConfig α) (rt : α → α) (s : FMState α) (x : Idx)
    (v : α) : Prop :=
  ((step cfg rt s).grad x =
    computeGradient cfg (freeze s x v).label (freeze s x v).time x) ∧
  ∀ (label : Idx → FMLabel) (time : Idx → α) (d : ℕ),
    (qualifies cfg label time x (axPlus x d) = false →
     qualifies cfg label time x (axMinus x d) = false →
     gradComponent cfg label time x d = 0) ∧
    (qualifies cfg label time x (axPlus x d) = true →
     qualifies cfg label time x (axMinus x d) = false →
     gradComponent cfg label time x d =
       (time (axPlus x d) - time x) / spacingAt cfg d) ∧
    (qualifies cfg label time x (axPlus x d) = false →
     qualifies cfg label time x (axMinus x d) = true →
     gradComponent cfg label time x d =
       (time x - time (axMinus x d)) / spacingAt cfg d) ∧
    (qualifies cfg label time x (axPlus x d) = true →
     qualifies cfg label time x (axMinus x d) = true →
     (gradComponent cfg label time x d =
        (time (axPlus x d) - time x) / spacingAt cfg d ∨
      gradComponent cfg label time x d =
        (time x - time (axMinus x d)) / spacingAt cfg d) ∧
     |gradComponent cfg label time x d| =
       max |(time (axPlus x d) - time x) / spacingAt cfg d|
         |(time x - time (axMinus x d)) / spacingAt cfg d|)

/-- The property asserted by the OneTarget claim: once a target value `v` is
latched the loop's termination test is exactly "queue empty or minimum
tentative value above `v + offset`", and freezing an unreached target while
unlatched captures its arrival time as the target value. -/
def OneTargetClaim (cfg : FMConfig α) (rt : α → α) (s : FMState α) (v : α) :
    Prop :=
  (s.latch = some v →
    (stopNow cfg s = true ↔
      (s.queue = [] ∨ ∃ e : Idx × α, minEntry s.queue = some e ∧
        v + cfg.offset < e.2))) ∧
  (∀ x : Idx, s.latch = none → minEntry s.queue = some (x, v) →
    x ∈ cfg.targets → x ∉ s.reached →
    (step cfg rt s).latch = some v ∧ (step cfg rt s).time x = v)

/-- The out-of-bounds invariant for an index `i`: `i` is not labeled Alive,
Trial or InitialTrial, has no queue entry, does not occur in the extraction
trace, and does not occur in the reached-target output. -/
def OOBInv (i : Idx) (s : FMState α) : Prop :=
  s.label i ≠ FMLabel.AlivePoint ∧ s.label i ≠ FMLabel.TrialPoint ∧
    s.label i ≠ FMLabel.InitialTrialPoint ∧
    (∀ e ∈ s.queue, e.1 ≠ i) ∧ (∀ e ∈ s.trace, e.1 ≠ i) ∧
    ∀ j ∈ s.reached, j ≠ i

/-- The property asserted by the bounds-safety claim: at every point of the
run (any number of loop iterations from the initial state), the
out-of-bounds index `i` satisfies the out-of-bounds invariant. -/
def BoundsSafetyClaim (cfg : FMConfig α) (rt : α → α) (i : Idx) : Prop :=
  ∀ f : ℕ, OOBInv i (runner cfg rt f (initState cfg))

/-- The discretized Eikonal sum `Σ_d (T − a_d)²/h_d²` over an axis set
(quadratic form, matching the max-form when `T` exceeds every axis
value). -/
def eikSum (axes : List (α × α)) (T : α) : α :=
  (axes.map fun p => (T - p.1) ^ 2 / p.2 ^ 2).sum

/-- The max-form discretized Eikonal sum `Σ_d (max(T − a_d, 0))²/h_d²` over
an axis set. -/
def eikSumMax (axes : List (α × α)) (T : α) : α :=
  (axes.map fun p => max (T - p.1) 0 ^ 2 / p.2 ^ 2).sum

/-- The property asserted by the quadratic-update claim: when no axis has an
Alive axis-neighbor the candidate is unset (so the neighbor is not enqueued
that round), and a returned candidate `T` solves the discretized Eikonal
relation over a nonempty causally valid subset of the available axes, each
retained axis value lying strictly below `T`, and no smaller positive value
satisfies the max-form relation over that subset (so `T` is its smallest
positive root). -/
def UpdateClaim (cfg : FMConfig α) (rt : α → α) (label : Idx → FMLabel)
    (time : Idx → α) (y : Idx) : Prop :=
  (availableAxes cfg label time y = [] →
    updateValue cfg rt label time y = none) ∧
  ∀ T : α, updateValue cfg rt label time y = some T →
    ∃ R : List (α × α), R ≠ [] ∧ R ⊆ availableAxes cfg label time y ∧
      (∀ p ∈ R, p.1 < T) ∧ eikSum R T = 1 / cfg.speed y ^ 2 ∧
      ∀ U : α, 0 < U → U < T → eikSumMax R U < 1 / cfg.speed y ^ 2

/-- Witness configuration over the reals (the scalar type of the actual
floating-point program, idealised). -/
def cfgWR : FMConfig ℝ :=
  { size := [1]
    spacing := [1]
    speed := fun _ => 1
    stoppingValue := 100
    largeValue := 1000
    aliveSeeds := []
    trialSeeds := []
    targets := []
    mode := TargetMode.noTargets
    offset := 0
    generateGradient := false }

/-- The square root used by the monotonicity counterexample run: exact on
`4`, the only discriminant arising in that run (every update there is a
single-axis solve with `h = F = 1`, whose discriminant is
`4·rhs/h² = 4`), where the exact square root is `2`. -/
def rtX : ℚ → ℚ := fun q => if q = 4 then 2 else 0

/-- The monotonicity counterexample configuration: a 1-dimensional grid of
four cells, an Alive seed at index 0 with arrival time 0, and a Trial seed
at index 3 with tentative value 10.  The front marches from index 3 leftward
(values 10, 11), and only then does index 1 receive a candidate computed
from the Alive seed at index 0, with value 1 — so the extraction order is
10, 11, 1, which is not non-decreasing. -/
def cfgX : FMConfig ℚ :=
  { size := [4]
    spacing := [1]
    speed := fun _ => 1
    stoppingValue := 1000
    largeValue := 100000
    aliveSeeds := [([0], 0)]
    trialSeeds := [([3], 10)]
    targets := []
    mode := TargetMode.noTargets
    offset := 0
    generateGradient := false }

/-- Enumeration of the in-bounds indices of a grid with the given sizes. -/
def allCells : List ℕ → List Idx
  | [] => [[]]
  | n :: rest => (List.range n).flatMap fun k =>
      (allCells rest).map fun t => ((k : ℤ) :: t)

/-- The number of in-bounds indices not yet frozen Alive: the termination
measure of the main loop. -/
def nonAliveCount (cfg : FMConfig α) (s : FMState α) : ℕ :=
  (allCells cfg.size).countP fun i => !(decide (s.label i = FMLabel.AlivePoint))

/-- Well-formedness of the narrow-band queue: every entry is in bounds and
not yet Alive, and no index has two entries. -/
def WFqueue (cfg : FMConfig α) (s : FMState α) : Prop :=
  (∀ e ∈ s.queue,
    inBounds cfg e.1 = true ∧ s.label e.1 ≠ FMLabel.AlivePoint) ∧
    (s.queue.map Prod.fst).Nodup

/-- The reached set holds pairwise-distinct in-bounds members of the target
set. -/
def ReachedInv (cfg : FMConfig α) (s : FMState α) : Prop :=
  s.reached.Nodup ∧
    ∀ j ∈ s.reached, j ∈ cfg.targets ∧ inBounds cfg j = true

/-- The property asserted by the NoTargets claim: the latch is never set at
any point of the run, the run reaches a stopped state (so it never stops
early because of targets: the stop test is always the plain queue-empty /
stopping-value test), and the reported target value is the last arrival time
produced. -/
def NoTargetsClaim (cfg : FMConfig α) (rt : α → α) : Prop :=
  (∀ f : ℕ, (runner cfg rt f (initState cfg)).latch = none) ∧
    stopNow cfg (run cfg rt) = true ∧
    ∀ e : Idx × α, (run cfg rt).trace.getLast? = some e →
      getTargetValue (run cfg rt) = e.2

/-- The property asserted by the unmet-threshold claim: the latch is never
set at any point of the run, and the run terminates through the non-target
stopping conditions (queue empty, or minimum tentative value above the
stopping value). -/
def ThresholdUnmetClaim (cfg : FMConfig α) (rt : α → α) : Prop :=
  (∀ f : ℕ, (runner cfg rt f (initState cfg)).latch = none) ∧
    stopNow cfg (run cfg rt) = true ∧
    ((run cfg rt).queue = [] ∨
      ∃ e : Idx × α, minEntry (run cfg rt).queue = some e ∧
        cfg.stoppingValue < e.2)

/-- A square-root placeholder for witnesses whose property does not depend
on the square root's semantics. -/
def rtQ : ℚ → ℚ := fun _ => 0

/-- Witness configuration with NoTargets mode: a one-cell grid with a single
Trial seed. -/
def cfgW7 : FMConfig ℚ :=
  { size := [1]
    spacing := [1]
    speed := fun _ => 1
    stoppingValue := 100
    largeValue := 1000
    aliveSeeds := []
    trialSeeds := [([0], 0)]
    targets := []
    mode := TargetMode.noTargets
    offset := 0
    generateGradient := false }

/-- Witness configuration requesting five targets while only one in-bounds
target is configured. -/
def cfgW9 : FMConfig ℚ :=
  { size := [1]
    spacing := [1]
    speed := fun _ => 1
    stoppingValue := 100
    largeValue := 1000
    aliveSeeds := []
    trialSeeds := [([0], 0)]
    targets := [[0], [9]]
    mode := TargetMode.someTargets 5
    offset := 0
    generateGradient := false }

/-- Witness configuration: a 1-dimensional grid with a single cell, one
Trial seed at the origin with value 0, the origin as target, OneTarget
mode. -/
def cfgW : FMConfig ℚ :=
  { size := [1]
    spacing := [1]
    speed := fun _ => 1
    stoppingValue := 100
    largeValue := 1000
    aliveSeeds := []
    trialSeeds := [([0], 0)]
    targets := [[0]]
    mode := TargetMode.oneTarget
    offset := 0
    generateGradient := true }

/-- Witness state: an explicit mid-run state with a latched target value. -/
def stLatched : FMState ℚ :=
  { label := fun _ => FMLabel.FarPoint
    time := fun _ => 0
    queue := [([0], 5)]
    trace := []
    reached := [[0]]
    latch := some 3
    lastValue := 5
    grad := fun _ => [] }

end ITKFastMarching

namespace ITKFastMarching

open FMLabel

variable {α : Type} [LinearOrderedField α]

/-- The queue has no minimum exactly when it is empty. -/
theorem minEntry_eq_none_iff (q : List (Idx × α)) :
    minEntry q = none ↔ q = [] := by
  cases q <;> simp [minEntry]

/-- `processNeighbor` does not change the gradient field. -/
theorem processNeighbor_grad (cfg : FMConfig α) (rt : α → α) (s : FMState α)
    (y : Idx) : (processNeighbor cfg rt s y).grad = s.grad := by
  unfold processNeighbor
  split
  · cases updateValue cfg rt s.label s.time y <;> rfl
  · rfl

/-- `processNeighbor` does not change the latch. -/
theorem processNeighbor_latch (cfg : FMConfig α) (rt : α → α) (s : FMState α)
    (y : Idx) : (processNeighbor cfg rt s y).latch = s.latch := by
  unfold processNeighbor
  split
  · cases updateValue cfg rt s.label s.time y <;> rfl
  · rfl

/-- `processNeighbor` does not change the arrival-time field. -/
theorem processNeighbor_time (cfg : FMConfig α) (rt : α → α) (s : FMState α)
    (y : Idx) : (processNeighbor cfg rt s y).time = s.time := by
  unfold processNeighbor
  split
  · cases updateValue cfg rt s.label s.time y <;> rfl
  · rfl

/-- `processNeighbor` does not change the trace. -/
theorem processNeighbor_trace (cfg : FMConfig α) (rt : α → α) (s : FMState α)
    (y : Idx) : (processNeighbor cfg rt s y).trace = s.trace := by
  unfold processNeighbor
  split
  · cases updateValue cfg rt s.label s.time y <;> rfl
  · rfl

/-- `processNeighbor` does not change the reached set. -/
theorem processNeighbor_reached (cfg : FMConfig α) (rt : α → α)
    (s : FMState α) (y : Idx) :
    (processNeighbor cfg rt s y).reached = s.reached := by
  unfold processNeighbor
  split
  · cases updateValue cfg rt s.label s.time y <;> rfl
  · rfl

/-- `processNeighbor` does not change the last produced value. -/
theorem processNeighbor_lastValue (cfg : FMConfig α) (rt : α → α)
    (s : FMState α) (y : Idx) :
    (processNeighbor cfg rt s y).lastValue = s.lastValue := by
  unfold processNeighbor
  split
  · cases updateValue cfg rt s.label s.time y <;> rfl
  · rfl

/-- Neighbor expansion does not change the gradient field. -/
theorem expand_grad (cfg : FMConfig α) (rt : α → α) (x : Idx) :
    ∀ s : FMState α, (expand cfg rt s x).grad = s.grad := by
  unfold expand
  generalize neighbors cfg x = ys
  induction ys with
  | nil => intro s; rfl
  | cons y ys ih =>
      intro s
      rw [List.foldl_cons, ih, processNeighbor_grad]

/-- Neighbor expansion does not change the latch. -/
theorem expand_latch (cfg : FMConfig α) (rt : α → α) (x : Idx) :
    ∀ s : FMState α, (expand cfg rt s x).latch = s.latch := by
  unfold expand
  generalize neighbors cfg x = ys
  induction ys with
  | nil => intro s; rfl
  | cons y ys ih =>
      intro s
      rw [List.foldl_cons, ih, processNeighbor_latch]

/-- Neighbor expansion does not change the arrival-time field. -/
theorem expand_time (cfg : FMConfig α) (rt : α → α) (x : Idx) :
    ∀ s : FMState α, (expand cfg rt s x).time = s.time := by
  unfold expand
  generalize neighbors cfg x = ys
  induction ys with
  | nil => intro s; rfl
  | cons y ys ih =>
      intro s
      rw [List.foldl_cons, ih, processNeighbor_time]

/-- Neighbor expansion does not change the trace. -/
theorem expand_trace (cfg : FMConfig α) (rt : α → α) (x : Idx) :
    ∀ s : FMState α, (expand cfg rt s x).trace = s.trace := by
  unfold expand
  generalize neighbors cfg x = ys
  induction ys with
  | nil => intro s; rfl
  | cons y ys ih =>
      intro s
      rw [List.foldl_cons, ih, processNeighbor_trace]

/-- Neighbor expansion does not change the reached set. -/
theorem expand_reached (cfg : FMConfig α) (rt : α → α) (x : Idx) :
    ∀ s : FMState α, (expand cfg rt s x).reached = s.reached := by
  unfold expand
  generalize neighbors cfg x = ys
  induction ys with
  | nil => intro s; rfl
  | cons y ys ih =>
      intro s
      rw [List.foldl_cons, ih, processNeighbor_reached]

/-- Neighbor expansion does not change the last produced value. -/
theorem expand_lastValue (cfg : FMConfig α) (rt : α → α) (x : Idx) :
    ∀ s : FMState α, (expand cfg rt s x).lastValue = s.lastValue := by
  unfold expand
  generalize neighbors cfg x = ys
  induction ys with
  | nil => intro s; rfl
  | cons y ys ih =>
      intro s
      rw [List.foldl_cons, ih, processNeighbor_lastValue]

/-- The gradient phase changes only the gradient field. -/
theorem gradPhase_label (cfg : FMConfig α) (s : FMState α) (x : Idx) :
    (gradPhase cfg s x).label = s.label := by
  unfold gradPhase; split <;> rfl

/-- The gradient phase does not change the arrival-time field. -/
theorem gradPhase_time (cfg : FMConfig α) (s : FMState α) (x : Idx) :
    (gradPhase cfg s x).time = s.time := by
  unfold gradPhase; split <;> rfl

/-- The gradient phase does not change the queue. -/
theorem gradPhase_queue (cfg : FMConfig α) (s : FMState α) (x : Idx) :
    (gradPhase cfg s x).queue = s.queue := by
  unfold gradPhase; split <;> rfl

/-- The gradient phase does not change the trace. -/
theorem gradPhase_trace (cfg : FMConfig α) (s : FMState α) (x : Idx) :
    (gradPhase cfg s x).trace = s.trace := by
  unfold gradPhase; split <;> rfl

/-- The gradient phase does not change the reached set. -/
theorem gradPhase_reached (cfg : FMConfig α) (s : FMState α) (x : Idx) :
    (gradPhase cfg s x).reached = s.reached := by
  unfold gradPhase; split <;> rfl

/-- The gradient phase does not change the latch. -/
theorem gradPhase_latch (cfg : FMConfig α) (s : FMState α) (x : Idx) :
    (gradPhase cfg s x).latch = s.latch := by
  unfold gradPhase; split <;> rfl

/-- The gradient phase does not change the last produced value. -/
theorem gradPhase_lastValue (cfg : FMConfig α) (s : FMState α) (x : Idx) :
    (gradPhase cfg s x).lastValue = s.lastValue := by
  unfold gradPhase; split <;> rfl

/-- The target phase does not change the label field. -/
theorem targetPhase_label (cfg : FMConfig α) (s : FMState α) (x : Idx)
    (v : α) : (targetPhase cfg s x v).label = s.label := by
  unfold targetPhase; split <;> rfl

/-- The target phase does not change the arrival-time field. -/
theorem targetPhase_time (cfg : FMConfig α) (s : FMState α) (x : Idx)
    (v : α) : (targetPhase cfg s x v).time = s.time := by
  unfold targetPhase; split <;> rfl

/-- The target phase does not change the queue. -/
theorem targetPhase_queue (cfg : FMConfig α) (s : FMState α) (x : Idx)
    (v : α) : (targetPhase cfg s x v).queue = s.queue := by
  unfold targetPhase; split <;> rfl

/-- The target phase does not change the trace. -/
theorem targetPhase_trace (cfg : FMConfig α) (s : FMState α) (x : Idx)
    (v : α) : (targetPhase cfg s x v).trace = s.trace := by
  unfold targetPhase; split <;> rfl

/-- The target phase does not change the gradient field. -/
theorem targetPhase_grad (cfg : FMConfig α) (s : FMState α) (x : Idx)
    (v : α) : (targetPhase cfg s x v).grad = s.grad := by
  unfold targetPhase; split <;> rfl

/-- The target phase does not change the last produced value. -/
theorem targetPhase_lastValue (cfg : FMConfig α) (s : FMState α) (x : Idx)
    (v : α) : (targetPhase cfg s x v).lastValue = s.lastValue := by
  unfold targetPhase; split <;> rfl

end ITKFastMarching

namespace ITKFastMarching

open FMLabel

variable {α : Type} [LinearOrderedField α]

/-- C10: for every count `n`, `SetTargetReachedModeToSomeTargets n` sets both
the target-reached mode to `SomeTargets` and `NumberOfTargets` to `n`, while
`SetTargetReachedModeToAllTargets` sets only the mode to `AllTargets` and
leaves `NumberOfTargets` unchanged; in particular, after SomeTargets(n) then
AllTargets, `GetNumberOfTargets` still returns `n`. -/
theorem someTargets_allTargets_frame (s : UG.FilterState) (n : ℕ) :
    (UG.SetTargetReachedModeToSomeTargets s n).targetReachedMode =
        UG.SomeTargets ∧
      (UG.SetTargetReachedModeToSomeTargets s n).numberOfTargets = n ∧
      (UG.SetTargetReachedModeToAllTargets s).targetReachedMode =
        UG.AllTargets ∧
      (UG.SetTargetReachedModeToAllTargets s).numberOfTargets =
        s.numberOfTargets ∧
      UG.GetNumberOfTargets
        (UG.SetTargetReachedModeToAllTargets
          (UG.SetTargetReachedModeToSomeTargets s n)) = n :=
  ⟨rfl, rfl, rfl, rfl, rfl⟩

/-- C5: when gradient generation is enabled, the step stores at the frozen
node the gradient computed from the post-freeze fields, and each gradient
component is the upwind one-sided finite difference toward a qualifying
(in-bounds, Alive-or-Outside, larger-arrival-time) axis-neighbor, preferring
the larger-magnitude difference when both qualify, and zero when neither
qualifies. -/
theorem upwind_gradient_formula (cfg : FMConfig α) (rt : α → α)
    (s : FMState α) (x : Idx) (v : α)
    (hg : cfg.generateGradient = true)
    (hmin : minEntry s.queue = some (x, v)) :
    GradientClaim cfg rt s x v := by
  constructor
  · simp only [step, hmin]
    rw [expand_grad, targetPhase_grad]
    unfold gradPhase
    rw [if_pos hg]
    simp
  · intro label time d
    refine ⟨?_, ?_, ?_, ?_⟩
    · intro h1 h2
      simp [gradComponent, h1, h2]
    · intro h1 h2
      simp [gradComponent, h1, h2]
    · intro h1 h2
      simp [gradComponent, h1, h2]
    · intro h1 h2
      simp only [gradComponent, h1, h2, Bool.and_self, if_true]
      split
      · next hle => exact ⟨Or.inl rfl, (max_eq_left hle).symm⟩
      · next hgt =>
          exact ⟨Or.inr rfl, (max_eq_right (le_of_lt (not_le.mp hgt))).symm⟩

/-- C6: under OneTarget mode, a latched target value `v` makes the loop's
termination test exactly "queue empty or minimum tentative value above
`v + offset`", and freezing an unreached target node while unlatched
captures its arrival time as the target value. -/
theorem oneTarget_latch_and_stop (cfg : FMConfig α) (rt : α → α)
    (s : FMState α) (v : α) (hm : cfg.mode = TargetMode.oneTarget) :
    OneTargetClaim cfg rt s v := by
  constructor
  · intro hl
    cases hq : minEntry s.queue with
    | none =>
        have hqe : s.queue = [] := (minEntry_eq_none_iff s.queue).mp hq
        simp [stopNow, hq, hqe, minEntry]
    | some e =>
        have hne : s.queue ≠ [] := by
          intro h0
          rw [h0] at hq
          simp [minEntry] at hq
        simp only [stopNow, hq, hl]
        constructor
        · intro h
          exact Or.inr ⟨e, rfl, of_decide_eq_true h⟩
        · rintro (h0 | ⟨e', he', hlt⟩)
          · exact absurd h0 hne
          · cases he'
            exact decide_eq_true hlt
  · intro x hl hmin ht hr
    simp only [step, hmin]
    have hre : (gradPhase cfg (freeze s x v) x).reached = s.reached := by
      rw [gradPhase_reached]
      rfl
    have hla : (gradPhase cfg (freeze s x v) x).latch = none := by
      rw [gradPhase_latch]
      exact hl
    constructor
    · rw [expand_latch]
      have hcond : (decide (x ∈ cfg.targets) &&
          decide (x ∉ (gradPhase cfg (freeze s x v) x).reached)) = true := by
        rw [hre]
        simp [ht, hr]
      have hlen :
          1 ≤ ((gradPhase cfg (freeze s x v) x).reached ++ [x]).length := by
        simp [List.length_append]
      simp only [targetPhase, hcond, if_true, hla, threshold, hm]
      rw [if_pos hlen]
    · rw [expand_time, targetPhase_time, gradPhase_time]
      simp [freeze]

/-- C8: once a target value is latched it is never changed again: a single
step preserves the latch, and hence so does the whole remaining run. -/
theorem target_latch_idempotent (cfg : FMConfig α) (rt : α → α)
    (s : FMState α) (v : α) (_hm : cfg.mode = TargetMode.oneTarget)
    (h : s.latch = some v) :
    (step cfg rt s).latch = some v ∧
      ∀ f : ℕ, (runner cfg rt f s).latch = some v := by
  have hstep : ∀ t : FMState α, t.latch = some v →
      (step cfg rt t).latch = some v := by
    intro t ht
    unfold step
    cases hq : minEntry t.queue with
    | none => exact ht
    | some e =>
        rw [expand_latch]
        have hsl : (gradPhase cfg (freeze t e.1 e.2) e.1).latch = some v := by
          rw [gradPhase_latch]
          exact ht
        unfold targetPhase
        split
        · cases hthr : threshold cfg <;> simp [hsl, hthr]
        · exact hsl
  have hrun : ∀ (f : ℕ) (t : FMState α), t.latch = some v →
      (runner cfg rt f t).latch = some v := by
    intro f
    induction f with
    | zero => intro t ht; exact ht
    | succ f ih =>
        intro t ht
        show (runner cfg rt f (guardedStep cfg rt t)).latch = some v
        apply ih
        unfold guardedStep
        split
        · exact ht
        · exact hstep t ht
  exact ⟨hstep s h, fun f => hrun f s h⟩

/-- Witness for the gradient claim at a concrete configuration and state. -/
theorem upwind_gradient_formula_witness :
    cfgW.generateGradient = true ∧
      minEntry stLatched.queue = some ([0], 5) ∧
      GradientClaim cfgW rtQ stLatched [0] 5 :=
  ⟨rfl, rfl, upwind_gradient_formula cfgW rtQ stLatched [0] 5 rfl rfl⟩

/-- Witness for the OneTarget latch-and-stop claim at a concrete state. -/
theorem oneTarget_latch_and_stop_witness :
    cfgW.mode = TargetMode.oneTarget ∧ OneTargetClaim cfgW rtQ stLatched 3 :=
  ⟨rfl, oneTarget_latch_and_stop cfgW rtQ stLatched 3 rfl⟩

/-- Witness for latch idempotence at a concrete latched state. -/
theorem target_latch_idempotent_witness :
    stLatched.latch = some 3 ∧
      ((step cfgW rtQ stLatched).latch = some 3 ∧
        ∀ f : ℕ, (runner cfgW rtQ f stLatched).latch = some 3) :=
  ⟨rfl, target_latch_idempotent cfgW rtQ stLatched 3 rfl rfl⟩

end ITKFastMarching

namespace ITKFastMarching

open FMLabel

variable {α : Type} [LinearOrderedField α]

/-- Every entry of the queue after an insert/decrease either carries an index
already present or the inserted index. -/
theorem insertOrDecrease_fst (q : List (Idx × α)) (y : Idx) (T : α)
    (e : Idx × α) (he : e ∈ insertOrDecrease q y T) :
    e.1 ∈ q.map Prod.fst ∨ e.1 = y := by
  unfold insertOrDecrease at he
  split at he
  · obtain ⟨a, ha, hae⟩ := List.mem_map.mp he
    by_cases hc : a.1 = y ∧ T < a.2
    · rw [if_pos hc] at hae
      right
      rw [← hae]
    · rw [if_neg hc] at hae
      left
      rw [← hae]
      exact List.mem_map_of_mem Prod.fst ha
  · rcases List.mem_append.mp he with h | h
    · exact Or.inl (List.mem_map_of_mem Prod.fst h)
    · right
      rw [List.mem_singleton.mp h]

/-- The fold underlying `minEntry` returns the seed or a list member. -/
theorem foldl_minFun_mem (es : List (Idx × α)) :
    ∀ b : Idx × α, es.foldl minFun b = b ∨ es.foldl minFun b ∈ es := by
  induction es with
  | nil => intro b; exact Or.inl rfl
  | cons x es ih =>
      intro b
      rw [List.foldl_cons]
      rcases ih (minFun b x) with h | h
      · rw [h]
        unfold minFun
        split
        · exact Or.inr (List.mem_cons_self _ _)
        · exact Or.inl rfl
      · exact Or.inr (List.mem_cons_of_mem _ h)

/-- The fold underlying `minEntry` yields a value below the seed and every
list member. -/
theorem foldl_minFun_le (es : List (Idx × α)) :
    ∀ b : Idx × α, (es.foldl minFun b).2 ≤ b.2 ∧
      ∀ e ∈ es, (es.foldl minFun b).2 ≤ e.2 := by
  induction es with
  | nil =>
      intro b
      exact ⟨le_refl _, by simp⟩
  | cons x es ih =>
      intro b
      rw [List.foldl_cons]
      obtain ⟨h1, h2⟩ := ih (minFun b x)
      have hb : (minFun b x).2 ≤ b.2 := by
        unfold minFun
        split
        · next h => exact le_of_lt h
        · exact le_refl _
      have hx : (minFun b x).2 ≤ x.2 := by
        unfold minFun
        split
        · exact le_refl _
        · next h => exact le_of_not_lt h
      refine ⟨le_trans h1 hb, ?_⟩
      intro e he
      rcases List.mem_cons.mp he with rfl | he'
      · exact le_trans h1 hx
      · exact h2 e he'

/-- The extracted minimum is a queue member. -/
theorem minEntry_mem (q : List (Idx × α)) (e : Idx × α)
    (h : minEntry q = some e) : e ∈ q := by
  cases q with
  | nil => simp [minEntry] at h
  | cons a as =>
      simp only [minEntry, Option.some.injEq] at h
      rcases foldl_minFun_mem as a with h0 | h0 <;> rw [← h]
      · rw [h0]
        exact List.mem_cons_self _ _
      · exact List.mem_cons_of_mem _ h0

/-- The extracted minimum has the smallest tentative value in the queue. -/
theorem minEntry_le (q : List (Idx × α)) (e : Idx × α)
    (h : minEntry q = some e) : ∀ x ∈ q, e.2 ≤ x.2 := by
  cases q with
  | nil => simp [minEntry] at h
  | cons a as =>
      simp only [minEntry, Option.some.injEq] at h
      obtain ⟨h1, h2⟩ := foldl_minFun_le as a
      intro x hx
      rcases List.mem_cons.mp hx with rfl | hx'
      · rw [← h]
        exact h1
      · rw [← h]
        exact h2 x hx'

/-- An out-of-bounds index keeps its label across a neighbor update. -/
theorem processNeighbor_label_oob (cfg : FMConfig α) (rt : α → α)
    (s : FMState α) (y i : Idx) (hi : inBounds cfg i = false) :
    (processNeighbor cfg rt s y).label i = s.label i := by
  unfold processNeighbor
  split
  · next hcond =>
      have hy : inBounds cfg y = true := by
        simp only [Bool.and_eq_true] at hcond
        exact hcond.1.1
      have hne : i ≠ y := by
        intro h0
        rw [h0, hy] at hi
        simp at hi
      cases updateValue cfg rt s.label s.time y with
      | none => rfl
      | some T =>
          show (if i = y ∧ s.label y = FarPoint then TrialPoint
            else s.label i) = s.label i
          rw [if_neg]
          intro hand
          exact hne hand.1
  · rfl

/-- An out-of-bounds index never gains a queue entry in a neighbor update. -/
theorem processNeighbor_queue_oob (cfg : FMConfig α) (rt : α → α)
    (s : FMState α) (y i : Idx) (hi : inBounds cfg i = false)
    (hq : ∀ e ∈ s.queue, e.1 ≠ i) :
    ∀ e ∈ (processNeighbor cfg rt s y).queue, e.1 ≠ i := by
  unfold processNeighbor
  split
  · next hcond =>
      have hy : inBounds cfg y = true := by
        simp only [Bool.and_eq_true] at hcond
        exact hcond.1.1
      have hne : y ≠ i := by
        intro h0
        rw [← h0, hy] at hi
        simp at hi
      cases updateValue cfg rt s.label s.time y with
      | none => exact hq
      | some T =>
          intro e he
          rcases insertOrDecrease_fst s.queue y T e he with h | h
          · obtain ⟨a, ha, haf⟩ := List.mem_map.mp h
            rw [← haf]
            exact hq a ha
          · rw [h]
            exact hne
  · exact hq

/-- A neighbor update preserves the out-of-bounds invariant. -/
theorem OOBInv_processNeighbor (cfg : FMConfig α) (rt : α → α)
    (s : FMState α) (y i : Idx) (hi : inBounds cfg i = false)
    (h : OOBInv i s) : OOBInv i (processNeighbor cfg rt s y) := by
  obtain ⟨h1, h2, h3, h4, h5, h6⟩ := h
  refine ⟨?_, ?_, ?_, ?_, ?_, ?_⟩
  · rw [processNeighbor_label_oob cfg rt s y i hi]; exact h1
  · rw [processNeighbor_label_oob cfg rt s y i hi]; exact h2
  · rw [processNeighbor_label_oob cfg rt s y i hi]; exact h3
  · exact processNeighbor_queue_oob cfg rt s y i hi h4
  · rw [processNeighbor_trace]; exact h5
  · rw [processNeighbor_reached]; exact h6

/-- Neighbor expansion preserves the out-of-bounds invariant. -/
theorem OOBInv_expand (cfg : FMConfig α) (rt : α → α) (x i : Idx)
    (hi : inBounds cfg i = false) :
    ∀ s : FMState α, OOBInv i s → OOBInv i (expand cfg rt s x) := by
  unfold expand
  generalize neighbors cfg x = ys
  induction ys with
  | nil => intro s h; exact h
  | cons y ys ih =>
      intro s h
      rw [List.foldl_cons]
      exact ih _ (OOBInv_processNeighbor cfg rt s y i hi h)

/-- Freezing a node distinct from `i` preserves the out-of-bounds
invariant. -/
theorem OOBInv_freeze (s : FMState α) (x i : Idx) (v : α) (hx : x ≠ i)
    (h : OOBInv i s) : OOBInv i (freeze s x v) := by
  obtain ⟨h1, h2, h3, h4, h5, h6⟩ := h
  refine ⟨?_, ?_, ?_, ?_, ?_, ?_⟩
  · show (if i = x then AlivePoint else s.label i) ≠ AlivePoint
    rw [if_neg (fun h0 => hx h0.symm)]
    exact h1
  · show (if i = x then AlivePoint else s.label i) ≠ TrialPoint
    rw [if_neg (fun h0 => hx h0.symm)]
    exact h2
  · show (if i = x then AlivePoint else s.label i) ≠ InitialTrialPoint
    rw [if_neg (fun h0 => hx h0.symm)]
    exact h3
  · intro e he
    exact h4 e (List.mem_of_mem_eraseP he)
  · intro e he
    rcases List.mem_append.mp he with h0 | h0
    · exact h5 e h0
    · rw [List.mem_singleton.mp h0]
      exact hx
  · exact h6

/-- Membership in the reached set after the target phase. -/
theorem targetPhase_reached_mem (cfg : FMConfig α) (s : FMState α)
    (x : Idx) (v : α) (j : Idx)
    (hj : j ∈ (targetPhase cfg s x v).reached) :
    j ∈ s.reached ∨ j = x := by
  unfold targetPhase at hj
  split at hj
  · rcases List.mem_append.mp hj with h0 | h0
    · exact Or.inl h0
    · exact Or.inr (List.mem_singleton.mp h0)
  · exact Or.inl hj

/-- The gradient phase preserves the out-of-bounds invariant. -/
theorem OOBInv_gradPhase (cfg : FMConfig α) (s : FMState α) (x i : Idx)
    (h : OOBInv i s) : OOBInv i (gradPhase cfg s x) := by
  obtain ⟨h1, h2, h3, h4, h5, h6⟩ := h
  refine ⟨?_, ?_, ?_, ?_, ?_, ?_⟩
  · rw [gradPhase_label]; exact h1
  · rw [gradPhase_label]; exact h2
  · rw [gradPhase_label]; exact h3
  · rw [gradPhase_queue]; exact h4
  · rw [gradPhase_trace]; exact h5
  · rw [gradPhase_reached]; exact h6

/-- The target phase preserves the out-of-bounds invariant when the frozen
index differs from `i`. -/
theorem OOBInv_targetPhase (cfg : FMConfig α) (s : FMState α) (x i : Idx)
    (v : α) (hx : x ≠ i) (h : OOBInv i s) :
    OOBInv i (targetPhase cfg s x v) := by
  obtain ⟨h1, h2, h3, h4, h5, h6⟩ := h
  refine ⟨?_, ?_, ?_, ?_, ?_, ?_⟩
  · rw [targetPhase_label]; exact h1
  · rw [targetPhase_label]; exact h2
  · rw [targetPhase_label]; exact h3
  · rw [targetPhase_queue]; exact h4
  · rw [targetPhase_trace]; exact h5
  · intro j hj
    rcases targetPhase_reached_mem cfg s x v j hj with h0 | h0
    · exact h6 j h0
    · rw [h0]
      exact hx

/-- One loop iteration preserves the out-of-bounds invariant. -/
theorem OOBInv_step (cfg : FMConfig α) (rt : α → α) (s : FMState α)
    (i : Idx) (hi : inBounds cfg i = false) (h : OOBInv i s) :
    OOBInv i (step cfg rt s) := by
  unfold step
  cases hq : minEntry s.queue with
  | none => exact h
  | some e =>
      obtain ⟨x, v⟩ := e
      have hx : x ≠ i := h.2.2.2.1 (x, v) (minEntry_mem s.queue (x, v) hq)
      exact OOBInv_expand cfg rt x i hi _
        (OOBInv_targetPhase cfg _ x i v hx
          (OOBInv_gradPhase cfg _ x i
            (OOBInv_freeze s x i v hx h)))

/-- Applying in-bounds Alive seeds preserves the out-of-bounds invariant. -/
theorem OOBInv_foldl_seedAlive (i : Idx) :
    ∀ (ps : List (Idx × α)) (st : FMState α),
      (∀ p ∈ ps, p.1 ≠ i) → OOBInv i st →
      OOBInv i (ps.foldl seedAlive st) := by
  intro ps
  induction ps with
  | nil => intro st _ h; exact h
  | cons p ps ih =>
      intro st hps h
      rw [List.foldl_cons]
      apply ih _ (fun q hq => hps q (List.mem_cons_of_mem _ hq))
      obtain ⟨h1, h2, h3, h4, h5, h6⟩ := h
      have hne : i ≠ p.1 := fun h0 => hps p (List.mem_cons_self _ _) h0.symm
      refine ⟨?_, ?_, ?_, h4, h5, h6⟩
      · show (if i = p.1 then AlivePoint else st.label i) ≠ AlivePoint
        rw [if_neg hne]
        exact h1
      · show (if i = p.1 then AlivePoint else st.label i) ≠ TrialPoint
        rw [if_neg hne]
        exact h2
      · show (if i = p.1 then AlivePoint else st.label i) ≠ InitialTrialPoint
        rw [if_neg hne]
        exact h3

/-- Applying in-bounds Trial seeds preserves the out-of-bounds invariant. -/
theorem OOBInv_foldl_seedTrial (i : Idx) :
    ∀ (ps : List (Idx × α)) (st : FMState α),
      (∀ p ∈ ps, p.1 ≠ i) → OOBInv i st →
      OOBInv i (ps.foldl seedTrial st) := by
  intro ps
  induction ps with
  | nil => intro st _ h; exact h
  | cons p ps ih =>
      intro st hps h
      rw [List.foldl_cons]
      apply ih _ (fun q hq => hps q (List.mem_cons_of_mem _ hq))
      obtain ⟨h1, h2, h3, h4, h5, h6⟩ := h
      have hne : i ≠ p.1 := fun h0 => hps p (List.mem_cons_self _ _) h0.symm
      refine ⟨?_, ?_, ?_, ?_, h5, h6⟩
      · show (if i = p.1 then InitialTrialPoint else st.label i) ≠ AlivePoint
        rw [if_neg hne]
        exact h1
      · show (if i = p.1 then InitialTrialPoint else st.label i) ≠ TrialPoint
        rw [if_neg hne]
        exact h2
      · show (if i = p.1 then InitialTrialPoint else st.label i) ≠
          InitialTrialPoint
        rw [if_neg hne]
        exact h3
      · intro e he
        rcases insertOrDecrease_fst st.queue p.1 p.2 e he with h0 | h0
        · obtain ⟨a, ha, haf⟩ := List.mem_map.mp h0
          rw [← haf]
          exact h4 a ha
        · rw [h0]
          exact fun h0 => hne h0.symm

/-- Applying seed gradients preserves the out-of-bounds invariant. -/
theorem OOBInv_foldl_seedGrad (cfg : FMConfig α) (i : Idx) :
    ∀ (ps : List (Idx × α)) (st : FMState α),
      OOBInv i st → OOBInv i (ps.foldl (seedGrad cfg) st) := by
  intro ps
  induction ps with
  | nil => intro st h; exact h
  | cons p ps ih =>
      intro st h
      rw [List.foldl_cons]
      exact ih _ h

/-- The initial state satisfies the out-of-bounds invariant. -/
theorem OOBInv_initState (cfg : FMConfig α) (i : Idx)
    (hi : inBounds cfg i = false) : OOBInv i (initState cfg) := by
  have hbase : OOBInv i (baseState cfg) := by
    refine ⟨?_, ?_, ?_, by simp [baseState], by simp [baseState],
      by simp [baseState]⟩ <;>
      · show (if cfg.speed i ≤ 0 then OutsidePoint else FarPoint) ≠ _
        split <;> simp
  have hseeds : ∀ ps : List (Idx × α),
      ∀ p ∈ ps.filter fun p => inBounds cfg p.1, p.1 ≠ i := by
    intro ps p hp h0
    have := List.of_mem_filter hp
    rw [h0, hi] at this
    simp at this
  unfold initState
  split
  · apply OOBInv_foldl_seedGrad
    apply OOBInv_foldl_seedTrial i _ _ (hseeds cfg.trialSeeds)
    exact OOBInv_foldl_seedAlive i _ _ (hseeds cfg.aliveSeeds) hbase
  · apply OOBInv_foldl_seedTrial i _ _ (hseeds cfg.trialSeeds)
    exact OOBInv_foldl_seedAlive i _ _ (hseeds cfg.aliveSeeds) hbase

/-- C4: out-of-bounds seed or target indices are silently ignored: at every
point of a run, an out-of-bounds index is never Alive or Trial, never sits
in the queue, never appears in the extraction trace, and never appears in
the reached-target output (the run itself is a total function, so it cannot
fail). -/
theorem outOfBounds_nodes_ignored (cfg : FMConfig α) (rt : α → α) (i : Idx)
    (hi : inBounds cfg i = false) : BoundsSafetyClaim cfg rt i := by
  have hrun : ∀ (f : ℕ) (s : FMState α), OOBInv i s →
      OOBInv i (runner cfg rt f s) := by
    intro f
    induction f with
    | zero => intro s h; exact h
    | succ f ih =>
        intro s h
        show OOBInv i (runner cfg rt f (guardedStep cfg rt s))
        apply ih
        unfold guardedStep
        split
        · exact h
        · exact OOBInv_step cfg rt s i hi h
  intro f
  exact hrun f _ (OOBInv_initState cfg i hi)

/-- Witness for bounds safety: the index 5 lies outside the one-cell grid of
the witness configuration. -/
theorem outOfBounds_nodes_ignored_witness :
    inBounds cfgW ([5] : Idx) = false ∧ BoundsSafetyClaim cfgW rtQ [5] :=
  ⟨by decide, outOfBounds_nodes_ignored cfgW rtQ [5] (by decide)⟩

end ITKFastMarching

namespace ITKFastMarching

open FMLabel

variable {α : Type} [LinearOrderedField α]

/-- A strict count comparison: when predicate `p` implies `q` pointwise and
some member satisfies `q` but not `p`, the `p`-count is strictly smaller. -/
theorem countP_lt_of_mem {β : Type} (p q : β → Bool) :
    ∀ l : List β, (∀ a ∈ l, p a = true → q a = true) →
      ∀ a ∈ l, p a = false → q a = true → l.countP p < l.countP q := by
  intro l
  induction l with
  | nil => intro _ a ha; cases ha
  | cons b l ih =>
      intro hpq a ha hpa hqa
      rw [List.countP_cons, List.countP_cons]
      rcases List.mem_cons.mp ha with rfl | ha'
      · have hle : l.countP p ≤ l.countP q :=
          List.countP_mono_left fun x hx hp => hpq x (List.mem_cons_of_mem _ hx) hp
        rw [hpa, hqa]
        rw [if_neg (by simp), if_pos rfl]
        omega
      · have h1 : l.countP p < l.countP q :=
          ih (fun x hx hp => hpq x (List.mem_cons_of_mem _ hx) hp) a ha' hpa hqa
        have h2 : (if p b = true then 1 else 0) ≤ (if q b = true then 1 else 0) := by
          by_cases hb : p b = true
          · rw [if_pos hb, if_pos (hpq b (List.mem_cons_self _ _) hb)]
          · rw [if_neg hb]
            split <;> omega
        exact add_lt_add_of_lt_of_le h1 h2

/-- Length of a flat map whose pieces all have the same length. -/
theorem length_flatMap_const {β γ : Type} (f : β → List γ) (L : ℕ) :
    ∀ l : List β, (∀ b ∈ l, (f b).length = L) →
      (l.flatMap f).length = l.length * L := by
  intro l
  induction l with
  | nil => intro _; simp
  | cons b l ih =>
      intro h
      rw [List.flatMap_cons, List.length_append, h b (List.mem_cons_self _ _),
        ih fun x hx => h x (List.mem_cons_of_mem _ hx), List.length_cons]
      ring

/-- The cell enumeration has as many entries as the grid has cells. -/
theorem allCells_length : ∀ sz : List ℕ, (allCells sz).length = sz.prod := by
  intro sz
  induction sz with
  | nil => rfl
  | cons n rest ih =>
      show ((List.range n).flatMap fun k =>
        (allCells rest).map fun t => ((k : ℤ) :: t)).length = (n :: rest).prod
      rw [length_flatMap_const _ ((allCells rest).length) _
        (fun b _ => List.length_map _ _), List.length_range, List.prod_cons, ih]

/-- Membership in the cell enumeration is coordinatewise range membership. -/
theorem mem_allCells : ∀ (sz : List ℕ) (i : Idx),
    i ∈ allCells sz ↔
      (i.length = sz.length ∧ ∀ p ∈ i.zip sz, 0 ≤ p.1 ∧ p.1 < (p.2 : ℤ)) := by
  intro sz
  induction sz with
  | nil =>
      intro i
      simp [allCells, List.length_eq_zero]
  | cons n rest ih =>
      intro i
      cases i with
      | nil => simp [allCells]
      | cons c i' =>
          simp only [allCells, List.mem_flatMap, List.mem_map, List.mem_range]
          constructor
          · rintro ⟨k, hk, t, ht, hct⟩
            injection hct with h1 h2
            subst h2
            obtain ⟨hlen, hall⟩ := (ih t).mp ht
            refine ⟨?_, ?_⟩
            · simp [List.length_cons, hlen]
            · intro p hp
              rw [List.zip_cons_cons] at hp
              rcases List.mem_cons.mp hp with rfl | hp'
              · constructor
                · show (0 : ℤ) ≤ c
                  rw [← h1]
                  exact Int.natCast_nonneg k
                · show c < (n : ℤ)
                  rw [← h1]
                  exact_mod_cast hk
              · exact hall p hp'
          · rintro ⟨hlen, hall⟩
            have hc := hall (c, n)
              (by rw [List.zip_cons_cons]; exact List.mem_cons_self _ _)
            obtain ⟨hc0, hcn⟩ := hc
            simp only [List.length_cons] at hlen
            refine ⟨c.toNat, by omega, i', ?_, ?_⟩
            · apply (ih i').mpr
              refine ⟨by omega, ?_⟩
              intro p hp
              apply hall
              rw [List.zip_cons_cons]
              exact List.mem_cons_of_mem _ hp
            · rw [Int.toNat_of_nonneg hc0]

/-- `inBounds` agrees with membership in the cell enumeration. -/
theorem inBounds_iff_mem_allCells (cfg : FMConfig α) (i : Idx) :
    inBounds cfg i = true ↔ i ∈ allCells cfg.size := by
  rw [mem_allCells]
  unfold inBounds
  simp [List.all_eq_true, Bool.and_eq_true, decide_eq_true_eq]

/-- Decrease-key on a present index leaves the queue's index list
unchanged. -/
theorem insertOrDecrease_map_fst_of_mem (q : List (Idx × α)) (y : Idx)
    (T : α) (h : (q.any fun e => decide (e.1 = y)) = true) :
    (insertOrDecrease q y T).map Prod.fst = q.map Prod.fst := by
  unfold insertOrDecrease
  rw [if_pos h, List.map_map]
  apply List.map_congr_left
  intro a _
  show (if a.1 = y ∧ T < a.2 then (y, T) else a).1 = a.1
  by_cases hc : a.1 = y ∧ T < a.2
  · rw [if_pos hc]
    exact hc.1.symm
  · rw [if_neg hc]

/-- Inserting a fresh index appends it to the queue's index list. -/
theorem insertOrDecrease_map_fst_of_not_mem (q : List (Idx × α)) (y : Idx)
    (T : α) (h : (q.any fun e => decide (e.1 = y)) = false) :
    (insertOrDecrease q y T).map Prod.fst = q.map Prod.fst ++ [y] := by
  unfold insertOrDecrease
  rw [if_neg (by simp [h]), List.map_append]
  rfl

/-- Insert/decrease preserves distinctness of queue indices. -/
theorem insertOrDecrease_nodup (q : List (Idx × α)) (y : Idx) (T : α)
    (h : (q.map Prod.fst).Nodup) :
    ((insertOrDecrease q y T).map Prod.fst).Nodup := by
  cases hany : q.any fun e => decide (e.1 = y) with
  | true =>
      rw [insertOrDecrease_map_fst_of_mem q y T hany]
      exact h
  | false =>
      rw [insertOrDecrease_map_fst_of_not_mem q y T hany]
      rw [List.nodup_append]
      refine ⟨h, List.nodup_singleton y, ?_⟩
      intro a ha hay
      rw [List.mem_singleton] at hay
      obtain ⟨e, he, hef⟩ := List.mem_map.mp ha
      have hco : (q.any fun e => decide (e.1 = y)) = true :=
        List.any_eq_true.mpr ⟨e, he, decide_eq_true (by rw [hef, hay])⟩
      rw [hany] at hco
      exact Bool.false_ne_true hco

/-- After erasing the (unique) entry of index `x`, no entry of index `x`
remains. -/
theorem mem_eraseP_fst_ne (q : List (Idx × α)) (x : Idx) (v : α)
    (hnd : (q.map Prod.fst).Nodup) (hv : (x, v) ∈ q) :
    ∀ e ∈ q.eraseP fun e => decide (e.1 = x), e.1 ≠ x := by
  obtain ⟨a, l1, l2, hl1, hpa, heq, herase⟩ :=
    @List.exists_of_eraseP (Idx × α) (fun e => decide (e.1 = x)) q (x, v) hv
      (decide_eq_true rfl)
  rw [herase]
  intro e he
  rcases List.mem_append.mp he with h1 | h2
  · intro h0
    exact hl1 e h1 (decide_eq_true h0)
  · intro h0
    have hax : a.1 = x := of_decide_eq_true hpa
    rw [heq, List.map_append, List.map_cons] at hnd
    have h3 : (a.1 :: l2.map Prod.fst).Nodup := (List.nodup_append.mp hnd).2.1
    have h4 : a.1 ∉ l2.map Prod.fst := (List.nodup_cons.mp h3).1
    apply h4
    rw [hax, ← h0]
    exact List.mem_map_of_mem Prod.fst h2

/-- A fold of latch-preserving seed operations preserves the latch. -/
theorem foldl_latch_eq (g : FMState α → (Idx × α) → FMState α)
    (hg : ∀ st p, (g st p).latch = st.latch) :
    ∀ (ps : List (Idx × α)) (st : FMState α),
      (ps.foldl g st).latch = st.latch := by
  intro ps
  induction ps with
  | nil => intro st; rfl
  | cons p ps ih =>
      intro st
      rw [List.foldl_cons, ih, hg]

/-- A fold of trace-preserving seed operations preserves the trace. -/
theorem foldl_trace_eq (g : FMState α → (Idx × α) → FMState α)
    (hg : ∀ st p, (g st p).trace = st.trace) :
    ∀ (ps : List (Idx × α)) (st : FMState α),
      (ps.foldl g st).trace = st.trace := by
  intro ps
  induction ps with
  | nil => intro st; rfl
  | cons p ps ih =>
      intro st
      rw [List.foldl_cons, ih, hg]

/-- A fold of reached-preserving seed operations preserves the reached
set. -/
theorem foldl_reached_eq (g : FMState α → (Idx × α) → FMState α)
    (hg : ∀ st p, (g st p).reached = st.reached) :
    ∀ (ps : List (Idx × α)) (st : FMState α),
      (ps.foldl g st).reached = st.reached := by
  intro ps
  induction ps with
  | nil => intro st; rfl
  | cons p ps ih =>
      intro st
      rw [List.foldl_cons, ih, hg]

/-- The initial state has no latched value. -/
theorem initState_latch (cfg : FMConfig α) : (initState cfg).latch = none := by
  unfold initState
  split <;>
    simp only [foldl_latch_eq (seedGrad cfg) fun _ _ => rfl,
      foldl_latch_eq seedTrial fun _ _ => rfl,
      foldl_latch_eq seedAlive fun _ _ => rfl] <;>
    rfl

/-- The initial state has an empty trace. -/
theorem initState_trace (cfg : FMConfig α) : (initState cfg).trace = [] := by
  unfold initState
  split <;>
    simp only [foldl_trace_eq (seedGrad cfg) fun _ _ => rfl,
      foldl_trace_eq seedTrial fun _ _ => rfl,
      foldl_trace_eq seedAlive fun _ _ => rfl] <;>
    rfl

/-- The initial state has an empty reached set. -/
theorem initState_reached (cfg : FMConfig α) :
    (initState cfg).reached = [] := by
  unfold initState
  split <;>
    simp only [foldl_reached_eq (seedGrad cfg) fun _ _ => rfl,
      foldl_reached_eq seedTrial fun _ _ => rfl,
      foldl_reached_eq seedAlive fun _ _ => rfl] <;>
    rfl

/-- A stopped state is a fixed point of the loop. -/
theorem runner_of_stop (cfg : FMConfig α) (rt : α → α) :
    ∀ (f : ℕ) (s : FMState α), stopNow cfg s = true →
      runner cfg rt f s = s := by
  intro f
  induction f with
  | zero => intro s _; rfl
  | succ f ih =>
      intro s h
      show runner cfg rt f (guardedStep cfg rt s) = s
      rw [guardedStep, if_pos h]
      exact ih s h

/-- A state the loop does not stop at has a queue minimum. -/
theorem stopNow_false_minEntry (cfg : FMConfig α) (s : FMState α)
    (h : stopNow cfg s = false) : ∃ e, minEntry s.queue = some e := by
  cases hq : minEntry s.queue with
  | none =>
      unfold stopNow at h
      rw [hq] at h
      simp at h
  | some e => exact ⟨e, rfl⟩

end ITKFastMarching

namespace ITKFastMarching

open FMLabel

variable {α : Type} [LinearOrderedField α]

/-- A fold of label-preserving seed operations preserves the label field. -/
theorem foldl_label_eq (g : FMState α → (Idx × α) → FMState α)
    (hg : ∀ st p, (g st p).label = st.label) :
    ∀ (ps : List (Idx × α)) (st : FMState α),
      (ps.foldl g st).label = st.label := by
  intro ps
  induction ps with
  | nil => intro st; rfl
  | cons p ps ih =>
      intro st
      rw [List.foldl_cons, ih, hg]

/-- A fold of queue-preserving seed operations preserves the queue. -/
theorem foldl_queue_eq (g : FMState α → (Idx × α) → FMState α)
    (hg : ∀ st p, (g st p).queue = st.queue) :
    ∀ (ps : List (Idx × α)) (st : FMState α),
      (ps.foldl g st).queue = st.queue := by
  intro ps
  induction ps with
  | nil => intro st; rfl
  | cons p ps ih =>
      intro st
      rw [List.foldl_cons, ih, hg]

/-- A neighbor update neither creates nor destroys Alive labels. -/
theorem processNeighbor_alive_iff (cfg : FMConfig α) (rt : α → α)
    (s : FMState α) (y j : Idx) :
    ((processNeighbor cfg rt s y).label j = AlivePoint) ↔
      s.label j = AlivePoint := by
  unfold processNeighbor
  split
  · cases updateValue cfg rt s.label s.time y with
    | none => exact Iff.rfl
    | some T =>
        show (if j = y ∧ s.label y = FarPoint then TrialPoint
          else s.label j) = AlivePoint ↔ _
        by_cases hc : j = y ∧ s.label y = FarPoint
        · rw [if_pos hc]
          constructor
          · intro h
            exact absurd h (by simp)
          · intro h
            exfalso
            rw [hc.1] at h
            rw [hc.2] at h
            exact absurd h (by simp)
        · rw [if_neg hc]
  · exact Iff.rfl

/-- Neighbor expansion neither creates nor destroys Alive labels. -/
theorem expand_alive_iff (cfg : FMConfig α) (rt : α → α) (x j : Idx) :
    ∀ s : FMState α,
      ((expand cfg rt s x).label j = AlivePoint ↔
        s.label j = AlivePoint) := by
  unfold expand
  generalize neighbors cfg x = ys
  induction ys with
  | nil => intro s; exact Iff.rfl
  | cons y ys ih =>
      intro s
      rw [List.foldl_cons]
      exact (ih _).trans (processNeighbor_alive_iff cfg rt s y j)

/-- The extracted node is Alive after the step. -/
theorem step_label_frozen (cfg : FMConfig α) (rt : α → α) (s : FMState α)
    (x : Idx) (v : α) (hmin : minEntry s.queue = some (x, v)) :
    (step cfg rt s).label x = AlivePoint := by
  simp only [step, hmin]
  apply (expand_alive_iff cfg rt x x _).mpr
  rw [targetPhase_label, gradPhase_label]
  show (if x = x then AlivePoint else s.label x) = AlivePoint
  rw [if_pos rfl]

/-- Alive labels persist across a step. -/
theorem step_alive_mono (cfg : FMConfig α) (rt : α → α) (s : FMState α)
    (j : Idx) (h : s.label j = AlivePoint) :
    (step cfg rt s).label j = AlivePoint := by
  unfold step
  cases hq : minEntry s.queue with
  | none => exact h
  | some e =>
      obtain ⟨x, v⟩ := e
      apply (expand_alive_iff cfg rt x j _).mpr
      rw [targetPhase_label, gradPhase_label]
      show (if j = x then AlivePoint else s.label j) = AlivePoint
      split
      · rfl
      · exact h

/-- Queue well-formedness transfers along equal queue and label fields. -/
theorem WFqueue_of_eq (cfg : FMConfig α) (s t : FMState α)
    (hq : t.queue = s.queue) (hl : t.label = s.label) (h : WFqueue cfg s) :
    WFqueue cfg t := by
  unfold WFqueue at h ⊢
  rw [hq, hl]
  exact h

/-- Freezing the extracted entry preserves queue well-formedness. -/
theorem WFqueue_freeze (cfg : FMConfig α) (s : FMState α) (x : Idx) (v : α)
    (hwf : WFqueue cfg s) (hmem : (x, v) ∈ s.queue) :
    WFqueue cfg (freeze s x v) := by
  obtain ⟨hm, hnd⟩ := hwf
  constructor
  · intro e he
    have hne : e.1 ≠ x := mem_eraseP_fst_ne s.queue x v hnd hmem e he
    have he' : e ∈ s.queue := List.mem_of_mem_eraseP he
    obtain ⟨h1, h2⟩ := hm e he'
    refine ⟨h1, ?_⟩
    show (if e.1 = x then AlivePoint else s.label e.1) ≠ AlivePoint
    rw [if_neg hne]
    exact h2
  · exact List.Nodup.sublist ((List.eraseP_sublist s.queue).map Prod.fst) hnd

/-- A neighbor update preserves queue well-formedness. -/
theorem WFqueue_processNeighbor (cfg : FMConfig α) (rt : α → α)
    (s : FMState α) (y : Idx) (h : WFqueue cfg s) :
    WFqueue cfg (processNeighbor cfg rt s y) := by
  obtain ⟨hmem, hnd⟩ := h
  unfold processNeighbor
  split
  · next hcond =>
      have hc := hcond
      simp only [Bool.and_eq_true, Bool.not_eq_true',
        decide_eq_false_iff_not] at hc
      cases updateValue cfg rt s.label s.time y with
      | none => exact ⟨hmem, hnd⟩
      | some T =>
          constructor
          · intro e he
            rcases insertOrDecrease_fst s.queue y T e he with hin | hey
            · obtain ⟨a, ha, haf⟩ := List.mem_map.mp hin
              obtain ⟨ha1, ha2⟩ := hmem a ha
              constructor
              · rw [← haf]
                exact ha1
              · show (if e.1 = y ∧ s.label y = FarPoint then TrialPoint
                  else s.label e.1) ≠ AlivePoint
                split
                · simp
                · rw [← haf]
                  exact ha2
            · constructor
              · rw [hey]
                exact hc.1.1
              · show (if e.1 = y ∧ s.label y = FarPoint then TrialPoint
                  else s.label e.1) ≠ AlivePoint
                split
                · simp
                · rw [hey]
                  exact hc.1.2
          · exact insertOrDecrease_nodup s.queue y T hnd
  · exact ⟨hmem, hnd⟩

/-- Neighbor expansion preserves queue well-formedness. -/
theorem WFqueue_expand (cfg : FMConfig α) (rt : α → α) (x : Idx) :
    ∀ s : FMState α, WFqueue cfg s → WFqueue cfg (expand cfg rt s x) := by
  unfold expand
  generalize neighbors cfg x = ys
  induction ys with
  | nil => intro s h; exact h
  | cons y ys ih =>
      intro s h
      rw [List.foldl_cons]
      exact ih _ (WFqueue_processNeighbor cfg rt s y h)

/-- One loop iteration preserves queue well-formedness. -/
theorem WFqueue_step (cfg : FMConfig α) (rt : α → α) (s : FMState α)
    (h : WFqueue cfg s) : WFqueue cfg (step cfg rt s) := by
  unfold step
  cases hq : minEntry s.queue with
  | none => exact h
  | some e =>
      obtain ⟨x, v⟩ := e
      have hmem := minEntry_mem s.queue (x, v) hq
      apply WFqueue_expand
      apply WFqueue_of_eq cfg (gradPhase cfg (freeze s x v) x) _
        (targetPhase_queue cfg _ x v) (targetPhase_label cfg _ x v)
      apply WFqueue_of_eq cfg (freeze s x v) _
        (gradPhase_queue cfg _ x) (gradPhase_label cfg _ x)
      exact WFqueue_freeze cfg s x v h hmem

/-- The initial state has a well-formed queue. -/
theorem WFqueue_initState (cfg : FMConfig α) : WFqueue cfg (initState cfg) := by
  have htrial : ∀ (ps : List (Idx × α)) (st : FMState α),
      (∀ p ∈ ps, inBounds cfg p.1 = true) → WFqueue cfg st →
      WFqueue cfg (ps.foldl seedTrial st) := by
    intro ps
    induction ps with
    | nil => intro st _ h; exact h
    | cons p ps ih =>
        intro st hps h
        rw [List.foldl_cons]
        apply ih _ fun q hq => hps q (List.mem_cons_of_mem _ hq)
        obtain ⟨hmem, hnd⟩ := h
        constructor
        · intro e he
          rcases insertOrDecrease_fst st.queue p.1 p.2 e he with hin | hey
          · obtain ⟨a, ha, haf⟩ := List.mem_map.mp hin
            obtain ⟨ha1, ha2⟩ := hmem a ha
            constructor
            · rw [← haf]
              exact ha1
            · show (if e.1 = p.1 then InitialTrialPoint else st.label e.1) ≠
                AlivePoint
              split
              · simp
              · rw [← haf]
                exact ha2
          · constructor
            · rw [hey]
              exact hps p (List.mem_cons_self _ _)
            · show (if e.1 = p.1 then InitialTrialPoint else st.label e.1) ≠
                AlivePoint
              rw [if_pos hey]
              simp
        · exact insertOrDecrease_nodup st.queue p.1 p.2 hnd
  have hfilter : ∀ ps : List (Idx × α),
      ∀ p ∈ ps.filter fun p => inBounds cfg p.1, inBounds cfg p.1 = true := by
    intro ps p hp
    have h := List.of_mem_filter hp
    exact h
  have halive : ((cfg.aliveSeeds.filter fun p => inBounds cfg p.1).foldl
      seedAlive (baseState cfg)).queue = [] := by
    rw [foldl_queue_eq seedAlive fun _ _ => rfl]
    rfl
  have hbase : WFqueue cfg ((cfg.aliveSeeds.filter fun p => inBounds cfg p.1).foldl
      seedAlive (baseState cfg)) := by
    constructor
    · intro e he
      rw [halive] at he
      cases he
    · rw [halive]
      simp
  unfold initState
  split
  · apply WFqueue_of_eq cfg
      ((cfg.trialSeeds.filter fun p => inBounds cfg p.1).foldl seedTrial _) _
      (foldl_queue_eq (seedGrad cfg) (fun _ _ => rfl) _ _)
      (foldl_label_eq (seedGrad cfg) (fun _ _ => rfl) _ _)
    exact htrial _ _ (hfilter cfg.trialSeeds) hbase
  · exact htrial _ _ (hfilter cfg.trialSeeds) hbase

/-- A step strictly decreases the number of non-Alive in-bounds cells. -/
theorem nonAlive_decrease (cfg : FMConfig α) (rt : α → α) (s : FMState α)
    (x : Idx) (v : α) (hwf : WFqueue cfg s)
    (hmin : minEntry s.queue = some (x, v)) :
    nonAliveCount cfg (step cfg rt s) < nonAliveCount cfg s := by
  unfold nonAliveCount
  apply countP_lt_of_mem _ _ (allCells cfg.size) ?_ x ?_ ?_ ?_
  · intro a _ hp
    rw [Bool.not_eq_true', decide_eq_false_iff_not] at hp ⊢
    intro h0
    exact hp (step_alive_mono cfg rt s a h0)
  · exact (inBounds_iff_mem_allCells cfg x).mp
      (hwf.1 (x, v) (minEntry_mem _ _ hmin)).1
  · rw [step_label_frozen cfg rt s x v hmin]
    simp
  · have h2 := (hwf.1 (x, v) (minEntry_mem _ _ hmin)).2
    simp [h2]

/-- With enough fuel the loop reaches a stopped state. -/
theorem runner_stopped (cfg : FMConfig α) (rt : α → α) :
    ∀ (f : ℕ) (s : FMState α), WFqueue cfg s → nonAliveCount cfg s < f →
      stopNow cfg (runner cfg rt f s) = true := by
  intro f
  induction f with
  | zero => intro s _ h; omega
  | succ f ih =>
      intro s hwf hcnt
      show stopNow cfg (runner cfg rt f (guardedStep cfg rt s)) = true
      cases hstop : stopNow cfg s with
      | true =>
          rw [guardedStep, if_pos hstop, runner_of_stop cfg rt f s hstop]
          exact hstop
      | false =>
          rw [guardedStep, if_neg (by simp [hstop])]
          apply ih
          · exact WFqueue_step cfg rt s hwf
          · obtain ⟨e, he⟩ := stopNow_false_minEntry cfg s hstop
            obtain ⟨x, v⟩ := e
            have := nonAlive_decrease cfg rt s x v hwf he
            omega

/-- The run always reaches a stopped state. -/
theorem run_stopped (cfg : FMConfig α) (rt : α → α) :
    stopNow cfg (run cfg rt) = true := by
  unfold run
  apply runner_stopped cfg rt _ _ (WFqueue_initState cfg)
  unfold totalFuel
  have h1 : nonAliveCount cfg (initState cfg) ≤ (allCells cfg.size).length := by
    unfold nonAliveCount
    exact List.countP_le_length _
  rw [allCells_length] at h1
  omega

end ITKFastMarching

namespace ITKFastMarching

open FMLabel

variable {α : Type} [LinearOrderedField α]

/-- Without a threshold (NoTargets) the target phase never latches. -/
theorem targetPhase_latch_nothr (cfg : FMConfig α) (s : FMState α) (x : Idx)
    (v : α) (hthr : threshold cfg = none) :
    (targetPhase cfg s x v).latch = s.latch := by
  unfold targetPhase
  split
  · cases hl : s.latch <;> simp [hthr, hl]
  · rfl

/-- Without a threshold a step never latches. -/
theorem step_latch_nothr (cfg : FMConfig α) (rt : α → α) (s : FMState α)
    (hthr : threshold cfg = none) (hl : s.latch = none) :
    (step cfg rt s).latch = none := by
  unfold step
  cases hq : minEntry s.queue with
  | none => exact hl
  | some e =>
      obtain ⟨x, v⟩ := e
      rw [expand_latch, targetPhase_latch_nothr cfg _ x v hthr, gradPhase_latch]
      exact hl

/-- Without a threshold the whole run never latches. -/
theorem runner_latch_nothr (cfg : FMConfig α) (rt : α → α)
    (hthr : threshold cfg = none) :
    ∀ (f : ℕ) (s : FMState α), s.latch = none →
      (runner cfg rt f s).latch = none := by
  intro f
  induction f with
  | zero => intro s h; exact h
  | succ f ih =>
      intro s h
      show (runner cfg rt f (guardedStep cfg rt s)).latch = none
      apply ih
      unfold guardedStep
      split
      · exact h
      · exact step_latch_nothr cfg rt s hthr h

/-- A step keeps the last produced value equal to the last trace entry. -/
theorem step_lastOK (cfg : FMConfig α) (rt : α → α) (s : FMState α)
    (h : ∀ e : Idx × α, s.trace.getLast? = some e → s.lastValue = e.2) :
    ∀ e : Idx × α, (step cfg rt s).trace.getLast? = some e →
      (step cfg rt s).lastValue = e.2 := by
  unfold step
  cases hq : minEntry s.queue with
  | none => exact h
  | some ee =>
      obtain ⟨x, v⟩ := ee
      intro e he
      rw [expand_trace, targetPhase_trace, gradPhase_trace] at he
      rw [expand_lastValue, targetPhase_lastValue, gradPhase_lastValue]
      have hconc : (freeze s x v).trace.getLast? = some (x, v) := by
        show (s.trace ++ [(x, v)]).getLast? = some (x, v)
        exact List.getLast?_concat _
      rw [hconc] at he
      cases he
      rfl

/-- The whole run keeps the last produced value equal to the last trace
entry. -/
theorem runner_lastOK (cfg : FMConfig α) (rt : α → α) :
    ∀ (f : ℕ) (s : FMState α),
      (∀ e : Idx × α, s.trace.getLast? = some e → s.lastValue = e.2) →
      ∀ e : Idx × α, (runner cfg rt f s).trace.getLast? = some e →
        (runner cfg rt f s).lastValue = e.2 := by
  intro f
  induction f with
  | zero => intro s h; exact h
  | succ f ih =>
      intro s h
      show ∀ e : Idx × α,
        (runner cfg rt f (guardedStep cfg rt s)).trace.getLast? = some e → _
      apply ih
      unfold guardedStep
      split
      · exact h
      · exact step_lastOK cfg rt s h

/-- C7: under NoTargets mode no target value is ever latched (so the run
never stops early because of targets: the stop test stays the plain
queue-empty / stopping-value test), the run reaches a stopped state, and the
reported target value is the last arrival time produced. -/
theorem noTargets_targetValue_is_last (cfg : FMConfig α) (rt : α → α)
    (hm : cfg.mode = TargetMode.noTargets) : NoTargetsClaim cfg rt := by
  have hthr : threshold cfg = none := by
    unfold threshold
    rw [hm]
  refine ⟨?_, run_stopped cfg rt, ?_⟩
  · intro f
    exact runner_latch_nothr cfg rt hthr f _ (initState_latch cfg)
  · intro e he
    have hlatch : (run cfg rt).latch = none := by
      unfold run
      exact runner_latch_nothr cfg rt hthr _ _ (initState_latch cfg)
    have hinit : ∀ e' : Idx × α, (initState cfg).trace.getLast? = some e' →
        (initState cfg).lastValue = e'.2 := by
      intro e' he'
      rw [initState_trace] at he'
      simp at he'
    have hlast : (run cfg rt).lastValue = e.2 := by
      unfold run at he ⊢
      exact runner_lastOK cfg rt (totalFuel cfg) (initState cfg) hinit e he
    simp only [getTargetValue, hlatch]
    exact hlast

/-- The target phase preserves the reached-set invariant. -/
theorem ReachedInv_targetPhase (cfg : FMConfig α) (s : FMState α) (x : Idx)
    (v : α) (hx : inBounds cfg x = true) (h : ReachedInv cfg s) :
    ReachedInv cfg (targetPhase cfg s x v) := by
  unfold targetPhase
  split
  · next hguard =>
      simp only [Bool.and_eq_true, decide_eq_true_eq] at hguard
      obtain ⟨hg1, hg2⟩ := hguard
      obtain ⟨hnd, hmem⟩ := h
      constructor
      · show (s.reached ++ [x]).Nodup
        rw [List.nodup_append]
        refine ⟨hnd, List.nodup_singleton x, ?_⟩
        intro a ha hax
        rw [List.mem_singleton.mp hax] at ha
        exact hg2 ha
      · intro j hj
        rcases List.mem_append.mp hj with h0 | h0
        · exact hmem j h0
        · rw [List.mem_singleton.mp h0]
          exact ⟨hg1, hx⟩
  · exact h

/-- The reached-set invariant transfers along equal reached fields. -/
theorem ReachedInv_of_eq (cfg : FMConfig α) (s t : FMState α)
    (hr : t.reached = s.reached) (h : ReachedInv cfg s) :
    ReachedInv cfg t := by
  unfold ReachedInv at h ⊢
  rw [hr]
  exact h

/-- One loop iteration preserves the reached-set invariant. -/
theorem ReachedInv_step (cfg : FMConfig α) (rt : α → α) (s : FMState α)
    (hwf : WFqueue cfg s) (h : ReachedInv cfg s) :
    ReachedInv cfg (step cfg rt s) := by
  unfold step
  cases hq : minEntry s.queue with
  | none => exact h
  | some e =>
      obtain ⟨x, v⟩ := e
      have hxin : inBounds cfg x = true :=
        (hwf.1 (x, v) (minEntry_mem _ _ hq)).1
      apply ReachedInv_of_eq cfg _ _ (expand_reached cfg rt x _)
      apply ReachedInv_targetPhase cfg _ x v hxin
      apply ReachedInv_of_eq cfg _ _ (gradPhase_reached cfg _ x)
      exact ReachedInv_of_eq cfg s (freeze s x v) rfl h

/-- The initial state satisfies the reached-set invariant. -/
theorem ReachedInv_initState (cfg : FMConfig α) :
    ReachedInv cfg (initState cfg) := by
  unfold ReachedInv
  rw [initState_reached]
  exact ⟨List.nodup_nil, by simp⟩

/-- When the threshold exceeds the number of configured in-bounds targets, a
step never latches. -/
theorem step_latch_unmet (cfg : FMConfig α) (rt : α → α) (s : FMState α)
    (n : ℕ) (hthr : threshold cfg = some n)
    (hn : (cfg.targets.filter fun t => inBounds cfg t).length < n)
    (hwf : WFqueue cfg s) (hri : ReachedInv cfg s) (hl : s.latch = none) :
    (step cfg rt s).latch = none := by
  unfold step
  cases hq : minEntry s.queue with
  | none => exact hl
  | some e =>
      obtain ⟨x, v⟩ := e
      rw [expand_latch]
      have hxin : inBounds cfg x = true :=
        (hwf.1 (x, v) (minEntry_mem _ _ hq)).1
      have hSl : (gradPhase cfg (freeze s x v) x).latch = none := by
        rw [gradPhase_latch]
        exact hl
      have hSr : (gradPhase cfg (freeze s x v) x).reached = s.reached := by
        rw [gradPhase_reached]
        rfl
      unfold targetPhase
      split
      · next hguard =>
          simp only [Bool.and_eq_true, decide_eq_true_eq, hSr] at hguard
          obtain ⟨hg1, hg2⟩ := hguard
          have hnd : (s.reached ++ [x]).Nodup := by
            rw [List.nodup_append]
            refine ⟨hri.1, List.nodup_singleton x, ?_⟩
            intro a ha hax
            rw [List.mem_singleton.mp hax] at ha
            exact hg2 ha
          have hsub : (s.reached ++ [x]) ⊆
              cfg.targets.filter fun t => inBounds cfg t := by
            intro j hj
            rcases List.mem_append.mp hj with h0 | h0
            · have hm := hri.2 j h0
              exact List.mem_filter.mpr ⟨hm.1, hm.2⟩
            · rw [List.mem_singleton.mp h0]
              exact List.mem_filter.mpr ⟨hg1, hxin⟩
          have hlen : (s.reached ++ [x]).length ≤
              (cfg.targets.filter fun t => inBounds cfg t).length :=
            (List.Nodup.subperm hnd hsub).length_le
          simp only [hSl, hSr, hthr]
          rw [if_neg]
          omega
      · exact hSl

/-- With an unmet threshold the whole run keeps the three invariants. -/
theorem runner_latch_unmet (cfg : FMConfig α) (rt : α → α) (n : ℕ)
    (hthr : threshold cfg = some n)
    (hn : (cfg.targets.filter fun t => inBounds cfg t).length < n) :
    ∀ (f : ℕ) (s : FMState α), WFqueue cfg s → ReachedInv cfg s →
      s.latch = none → (runner cfg rt f s).latch = none := by
  intro f
  induction f with
  | zero => intro s _ _ h3; exact h3
  | succ f ih =>
      intro s h1 h2 h3
      show (runner cfg rt f (guardedStep cfg rt s)).latch = none
      have hg1 : WFqueue cfg (guardedStep cfg rt s) := by
        unfold guardedStep
        split
        · exact h1
        · exact WFqueue_step cfg rt s h1
      have hg2 : ReachedInv cfg (guardedStep cfg rt s) := by
        unfold guardedStep
        split
        · exact h2
        · exact ReachedInv_step cfg rt s h1 h2
      have hg3 : (guardedStep cfg rt s).latch = none := by
        unfold guardedStep
        split
        · exact h3
        · exact step_latch_unmet cfg rt s n hthr hn h1 h2 h3
      exact ih _ hg1 hg2 hg3

/-- C9: when the target mode's required count exceeds the number of
configured in-bounds target indices, the reached threshold is never met: no
value is ever latched, no error is raised (the run is total and reaches a
stopped state), and the run terminates through the non-target stopping
conditions: queue empty or minimum tentative value above the stopping
value. -/
theorem unmet_threshold_no_latch (cfg : FMConfig α) (rt : α → α) (n : ℕ)
    (hthr : threshold cfg = some n)
    (hn : (cfg.targets.filter fun t => inBounds cfg t).length < n) :
    ThresholdUnmetClaim cfg rt := by
  have hlat : ∀ f : ℕ, (runner cfg rt f (initState cfg)).latch = none :=
    fun f => runner_latch_unmet cfg rt n hthr hn f (initState cfg)
      (WFqueue_initState cfg) (ReachedInv_initState cfg) (initState_latch cfg)
  refine ⟨hlat, run_stopped cfg rt, ?_⟩
  have hstop := run_stopped cfg rt
  have hlatch : (run cfg rt).latch = none := hlat (totalFuel cfg)
  unfold stopNow at hstop
  cases hq : minEntry (run cfg rt).queue with
  | none =>
      left
      exact (minEntry_eq_none_iff _).mp hq
  | some e =>
      right
      rw [hq, hlatch] at hstop
      exact ⟨e, rfl, of_decide_eq_true hstop⟩

/-- Witness for the NoTargets claim at a concrete configuration. -/
theorem noTargets_targetValue_witness :
    cfgW7.mode = TargetMode.noTargets ∧ NoTargetsClaim cfgW7 rtQ :=
  ⟨rfl, noTargets_targetValue_is_last cfgW7 rtQ rfl⟩

/-- Witness for the unmet-threshold claim: five targets requested, one
in-bounds target configured. -/
theorem unmet_threshold_no_latch_witness :
    threshold cfgW9 = some 5 ∧
      (cfgW9.targets.filter fun t => inBounds cfgW9 t).length < 5 ∧
      ThresholdUnmetClaim cfgW9 rtQ :=
  ⟨rfl, by decide, unmet_threshold_no_latch cfgW9 rtQ 5 rfl (by decide)⟩

end ITKFastMarching

namespace ITKFastMarching

open FMLabel

variable {α : Type} [LinearOrderedField α]

/-- Spacing entries are positive when the configured spacing is. -/
theorem spacingAt_pos (cfg : FMConfig α) (hsp : ∀ h ∈ cfg.spacing, 0 < h)
    (d : ℕ) : 0 < spacingAt cfg d := by
  unfold spacingAt
  rcases lt_or_le d cfg.spacing.length with hd | hd
  · rw [List.getD_eq_getElem?_getD, List.getElem?_eq_getElem hd]
    exact hsp _ (List.getElem_mem hd)
  · rw [List.getD_eq_getElem?_getD, List.getElem?_eq_none hd]
    exact zero_lt_one

/-- The spacing component of an axis produced by `axisMin`. -/
theorem axisMin_snd (cfg : FMConfig α) (label : Idx → FMLabel)
    (time : Idx → α) (y : Idx) (d : ℕ) (p : α × α)
    (h : axisMin cfg label time y d = some p) : p.2 = spacingAt cfg d := by
  simp only [axisMin] at h
  split at h
  · exact Option.noConfusion h
  · cases h
    rfl

/-- All available axes carry positive spacing. -/
theorem availableAxes_pos (cfg : FMConfig α) (label : Idx → FMLabel)
    (time : Idx → α) (y : Idx) (hsp : ∀ h ∈ cfg.spacing, 0 < h) :
    ∀ p ∈ availableAxes cfg label time y, 0 < p.2 := by
  intro p hp
  obtain ⟨d, _, hd⟩ := List.mem_filterMap.mp hp
  rw [axisMin_snd cfg label time y d p hd]
  exact spacingAt_pos cfg hsp d

/-- `dropMax` removes axes only. -/
theorem dropMax_subset (axes : List (α × α)) : dropMax axes ⊆ axes := by
  unfold dropMax
  cases axes with
  | nil => exact fun a ha => ha
  | cons p ps => exact List.eraseP_subset _

/-- The leading Eikonal coefficient is nonnegative for positive spacings. -/
theorem qA_nonneg : ∀ axes : List (α × α),
    (∀ p ∈ axes, 0 < p.2) → 0 ≤ qA axes := by
  intro axes
  induction axes with
  | nil => intro _; simp [qA]
  | cons p ps ih =>
      intro h
      unfold qA
      rw [List.map_cons, List.sum_cons]
      have h1 : (0 : α) < 1 / p.2 ^ 2 := by
        have hp := h p (List.mem_cons_self _ _)
        positivity
      have h2 := ih fun q hq => h q (List.mem_cons_of_mem _ hq)
      unfold qA at h2
      linarith

/-- The leading Eikonal coefficient is positive for at least one axis. -/
theorem qA_pos (axes : List (α × α)) (hne : axes ≠ [])
    (h : ∀ p ∈ axes, 0 < p.2) : 0 < qA axes := by
  cases axes with
  | nil => exact absurd rfl hne
  | cons p ps =>
      have h1 : (0 : α) < 1 / p.2 ^ 2 := by
        have hp := h p (List.mem_cons_self _ _)
        positivity
      have h2 := qA_nonneg ps fun q hq => h q (List.mem_cons_of_mem _ hq)
      unfold qA at h2 ⊢
      rw [List.map_cons, List.sum_cons]
      linarith

/-- The Eikonal sum expands to the quadratic in its coefficients. -/
theorem eikSum_quadratic (T rhs : α) : ∀ axes : List (α × α),
    eikSum axes T = qA axes * T ^ 2 + qB axes * T + (qC axes rhs + rhs) := by
  intro axes
  induction axes with
  | nil => simp [eikSum, qA, qB, qC]
  | cons p ps ih =>
      unfold eikSum qA qB qC at ih ⊢
      rw [List.map_cons, List.sum_cons, List.map_cons, List.sum_cons,
        List.map_cons, List.sum_cons, List.map_cons, List.sum_cons, ih]
      ring

/-- One max-form term at a smaller value lies strictly below the quadratic
term at the root. -/
theorem eikTerm_lt (U T a h : α) (hh : 0 < h) (ha : a < T) (hUT : U < T) :
    max (U - a) 0 ^ 2 / h ^ 2 < (T - a) ^ 2 / h ^ 2 := by
  have h1 : max (U - a) 0 < T - a := by
    apply max_lt
    · linarith
    · linarith
  have h0 : 0 ≤ max (U - a) 0 := le_max_right _ _
  have hpow : max (U - a) 0 ^ 2 < (T - a) ^ 2 := by
    apply pow_lt_pow_left₀ h1 h0
    norm_num
  have hh2 : 0 < h ^ 2 := by positivity
  exact (div_lt_div_iff_of_pos_right hh2).mpr hpow

/-- The max-form sum at a smaller value is at most the quadratic sum at the
root. -/
theorem eikSumMax_le (U T : α) : ∀ axes : List (α × α),
    (∀ p ∈ axes, 0 < p.2) → (∀ p ∈ axes, p.1 < T) → U < T →
    eikSumMax axes U ≤ eikSum axes T := by
  intro axes
  induction axes with
  | nil => intro _ _ _; simp [eikSumMax, eikSum]
  | cons p ps ih =>
      intro hh ha hUT
      unfold eikSumMax eikSum at ih ⊢
      rw [List.map_cons, List.sum_cons, List.map_cons, List.sum_cons]
      have h1 := le_of_lt (eikTerm_lt U T p.1 p.2
        (hh p (List.mem_cons_self _ _)) (ha p (List.mem_cons_self _ _)) hUT)
      have h2 := ih (fun q hq => hh q (List.mem_cons_of_mem _ hq))
        (fun q hq => ha q (List.mem_cons_of_mem _ hq)) hUT
      exact add_le_add h1 h2

/-- The max-form sum at a smaller value lies strictly below the quadratic
sum at the root (nonempty axis set). -/
theorem eikSumMax_lt (U T : α) (axes : List (α × α)) (hne : axes ≠ [])
    (hh : ∀ p ∈ axes, 0 < p.2) (ha : ∀ p ∈ axes, p.1 < T) (hUT : U < T) :
    eikSumMax axes U < eikSum axes T := by
  cases axes with
  | nil => exact absurd rfl hne
  | cons p ps =>
      unfold eikSumMax eikSum
      rw [List.map_cons, List.sum_cons, List.map_cons, List.sum_cons]
      have h1 := eikTerm_lt U T p.1 p.2 (hh p (List.mem_cons_self _ _))
        (ha p (List.mem_cons_self _ _)) hUT
      have h2 := eikSumMax_le U T ps
        (fun q hq => hh q (List.mem_cons_of_mem _ hq))
        (fun q hq => ha q (List.mem_cons_of_mem _ hq)) hUT
      unfold eikSumMax eikSum at h2
      exact add_lt_add_of_lt_of_le h1 h2

/-- The chosen root annihilates the quadratic when the square root is
exact. -/
theorem quad_root_eval (A B C s : α) (hA : A ≠ 0)
    (hs : s ^ 2 = B ^ 2 - 4 * A * C) :
    A * ((-B + s) / (2 * A)) ^ 2 + B * ((-B + s) / (2 * A)) + C = 0 := by
  have key : A * ((-B + s) / (2 * A)) ^ 2 + B * ((-B + s) / (2 * A)) + C
      = (s ^ 2 - (B ^ 2 - 4 * A * C)) / (4 * A) := by
    field_simp
    ring
  rw [key, hs, sub_self, zero_div]

end ITKFastMarching

namespace ITKFastMarching

open FMLabel

variable {α : Type} [LinearOrderedField α]

/-- The causal quadratic solve returns a value that solves the discretized
Eikonal relation over a nonempty causally valid subset of its input axes,
with every retained axis value strictly below it, and no smaller positive
value satisfies the max-form relation over that subset. -/
theorem causalSolve_spec (rt : α → α)
    (hrt : ∀ z : α, 0 ≤ z → 0 ≤ rt z ∧ rt z ^ 2 = z) (rhs : α) :
    ∀ (fuel : ℕ) (axes : List (α × α)), (∀ p ∈ axes, 0 < p.2) →
      ∀ T : α, causalSolve rt fuel axes rhs = some T →
      ∃ R : List (α × α), R ≠ [] ∧ R ⊆ axes ∧ (∀ p ∈ R, p.1 < T) ∧
        eikSum R T = rhs ∧
        ∀ U : α, 0 < U → U < T → eikSumMax R U < rhs := by
  intro fuel
  induction fuel with
  | zero =>
      intro axes _ T h
      exact Option.noConfusion h
  | succ fuel ih =>
      intro axes hpos T h
      simp only [causalSolve] at h
      split at h
      · exact Option.noConfusion h
      · next hne0 =>
          split at h
          · obtain ⟨R, hR1, hR2, hR3, hR4, hR5⟩ :=
              ih (dropMax axes) (fun p hp => hpos p (dropMax_subset axes hp))
                T h
            exact ⟨R, hR1, hR2.trans (dropMax_subset axes), hR3, hR4, hR5⟩
          · next hdisc =>
              split at h
              · next hkeep =>
                  injection h with hT
                  have hne : axes ≠ [] := by
                    intro h0
                    rw [h0] at hne0
                    exact hne0 rfl
                  have hall : ∀ p ∈ axes, p.1 < T := by
                    intro p hp
                    have := List.filter_length_eq_length.mp hkeep p hp
                    rw [← hT]
                    exact of_decide_eq_true (List.filter_length_eq_length.mp
                      hkeep p hp)
                  have hApos : 0 < qA axes := qA_pos axes hne hpos
                  have hd : (0 : α) ≤
                      qB axes ^ 2 - 4 * qA axes * qC axes rhs :=
                    not_lt.mp hdisc
                  have hs2 : rt (qB axes ^ 2 - 4 * qA axes * qC axes rhs) ^ 2
                      = qB axes ^ 2 - 4 * qA axes * qC axes rhs :=
                    (hrt _ hd).2
                  have hkey : qA axes * T ^ 2 + qB axes * T + qC axes rhs
                      = 0 := by
                    rw [← hT]
                    exact quad_root_eval (qA axes) (qB axes) (qC axes rhs)
                      (rt (qB axes ^ 2 - 4 * qA axes * qC axes rhs))
                      (ne_of_gt hApos) hs2
                  have hsum : eikSum axes T = rhs := by
                    rw [eikSum_quadratic T rhs axes]
                    linarith
                  refine ⟨axes, hne, List.Subset.refl axes, hall, hsum, ?_⟩
                  intro U _ hUT
                  calc eikSumMax axes U
                      < eikSum axes T := eikSumMax_lt U T axes hne hpos hall
                        hUT
                    _ = rhs := hsum
              · obtain ⟨R, hR1, hR2, hR3, hR4, hR5⟩ :=
                  ih _ (fun p hp => hpos p (List.filter_subset' axes hp)) T h
                exact ⟨R, hR1, hR2.trans (List.filter_subset' axes), hR3,
                  hR4, hR5⟩

/-- C3: the upwind quadratic update: when no axis has an Alive axis-neighbor
the candidate is unset (the neighbor is not enqueued that round); a returned
candidate `T` solves the discretized Eikonal relation
`Σ (T − a_d)²/h_d² = 1/F(y)²` over a nonempty causally valid subset of the
available axes, each retained axis value lies strictly below `T`, and `T` is
the smallest positive root of the max-form relation over that subset. -/
theorem updateValue_characterization (cfg : FMConfig α) (rt : α → α)
    (hrt : ∀ z : α, 0 ≤ z → 0 ≤ rt z ∧ rt z ^ 2 = z)
    (label : Idx → FMLabel) (time : Idx → α) (y : Idx)
    (hsp : ∀ h ∈ cfg.spacing, 0 < h) :
    UpdateClaim cfg rt label time y := by
  constructor
  · intro hax
    simp only [updateValue, hax]
    rfl
  · intro T h
    simp only [updateValue] at h
    exact causalSolve_spec rt hrt _ _ _
      (availableAxes_pos cfg label time y hsp) T h

/-- Witness for the quadratic-update claim over the reals with the exact
square root. -/
theorem updateValue_characterization_witness :
    (∀ h ∈ cfgWR.spacing, 0 < h) ∧
      UpdateClaim cfgWR Real.sqrt (fun _ => FMLabel.FarPoint)
        (fun _ => (0 : ℝ)) [0] :=
  ⟨by norm_num [cfgWR], updateValue_characterization cfgWR Real.sqrt
    (fun z hz => ⟨Real.sqrt_nonneg z, Real.sq_sqrt hz⟩) _ _ _
    (by norm_num [cfgWR])⟩

end ITKFastMarching


namespace ITKFastMarching

unseal Rat.add Rat.mul Rat.inv Rat.sub in
/-- C2 counterexample: the extraction trace of the run configured by `cfgX`
(Alive seed value 0 at index 0, Trial seed value 10 at index 3, unit speed,
four cells) is 10, 11, 1 — not non-decreasing.  `rtX` agrees with the exact
square root on every discriminant this run produces (only the value 4). -/
theorem extractionOrder_not_monotone_cex :
    (0 ≤ rtX 4 ∧ rtX 4 ^ 2 = 4) ∧
      (run cfgX rtX).trace.map Prod.snd = [10, 11, 1] ∧
      ¬ List.Chain' (· ≤ ·) ((run cfgX rtX).trace.map Prod.snd) := by
  have h2 : (run cfgX rtX).trace.map Prod.snd = [10, 11, 1] := by decide
  refine ⟨by decide, h2, ?_⟩
  rw [h2]
  simp only [List.chain'_cons, List.chain'_singleton, and_true]
  norm_num

end ITKFastMarching

namespace ITKFastMarching

open FMLabel

variable {α : Type} [LinearOrderedField α]

/-- Advancing the loop commutes with one guarded iteration. -/
theorem runner_comm (cfg : FMConfig α) (rt : α → α) :
    ∀ (f : ℕ) (s : FMState α),
      runner cfg rt f (guardedStep cfg rt s) =
        guardedStep cfg rt (runner cfg rt f s) := by
  intro f
  induction f with
  | zero => intro s; rfl
  | succ f ih =>
      intro s
      show runner cfg rt f (guardedStep cfg rt (guardedStep cfg rt s)) = _
      exact ih (guardedStep cfg rt s)

/-- A step appends the extracted entry to the trace. -/
theorem step_trace (cfg : FMConfig α) (rt : α → α) (s : FMState α) (x : Idx)
    (v : α) (hmin : minEntry s.queue = some (x, v)) :
    (step cfg rt s).trace = s.trace ++ [(x, v)] := by
  simp only [step, hmin]
  rw [expand_trace, targetPhase_trace, gradPhase_trace]
  rfl

/-- C2 (amended): the sequence of arrival-time values in extraction order is
non-decreasing, provided that whenever a node is extracted and frozen at
value `v`, every tentative value in the queue immediately afterwards is at
least `v` (the causal-candidate condition the counterexample violates). -/
theorem extractionOrder_monotone_of_causal (cfg : FMConfig α) (rt : α → α)
    (H : ∀ j : ℕ, j < totalFuel cfg → ∀ (x : Idx) (v : α),
      minEntry (runner cfg rt j (initState cfg)).queue = some (x, v) →
      ∀ e ∈ (step cfg rt (runner cfg rt j (initState cfg))).queue,
        v ≤ e.2) :
    List.Chain' (· ≤ ·) ((run cfg rt).trace.map Prod.snd) := by
  have key : ∀ j : ℕ, j ≤ totalFuel cfg →
      List.Chain' (· ≤ ·)
        ((runner cfg rt j (initState cfg)).trace.map Prod.snd) ∧
      ∀ e ∈ (runner cfg rt j (initState cfg)).queue, ∀ w : α,
        ((runner cfg rt j (initState cfg)).trace.map Prod.snd).getLast? =
          some w → w ≤ e.2 := by
    intro j
    induction j with
    | zero =>
        intro _
        constructor
        · show List.Chain' (· ≤ ·) ((initState cfg).trace.map Prod.snd)
          rw [initState_trace]
          exact List.chain'_nil
        · intro e _ w hw
          rw [show runner cfg rt 0 (initState cfg) = initState cfg from rfl,
            initState_trace] at hw
          simp at hw
    | succ j ih =>
        intro hj
        obtain ⟨ihc, ihq⟩ := ih (Nat.le_of_succ_le hj)
        have hstep : runner cfg rt (j + 1) (initState cfg) =
            guardedStep cfg rt (runner cfg rt j (initState cfg)) := by
          show runner cfg rt j (guardedStep cfg rt (initState cfg)) = _
          exact runner_comm cfg rt j (initState cfg)
        rw [hstep]
        unfold guardedStep
        split
        · exact ⟨ihc, ihq⟩
        · next hstop =>
            have hstop' :
                stopNow cfg (runner cfg rt j (initState cfg)) = false := by
              cases h0 : stopNow cfg (runner cfg rt j (initState cfg))
              · rfl
              · exact absurd h0 hstop
            obtain ⟨⟨x, v⟩, hmin⟩ :=
              stopNow_false_minEntry cfg _ hstop'
            have htr := step_trace cfg rt _ x v hmin
            have hvals : (step cfg rt
                (runner cfg rt j (initState cfg))).trace.map Prod.snd =
                ((runner cfg rt j (initState cfg)).trace.map Prod.snd)
                  ++ [v] := by
              rw [htr, List.map_append]
              rfl
            constructor
            · rw [hvals, List.chain'_append]
              refine ⟨ihc, List.chain'_singleton v, ?_⟩
              intro a ha b hb
              have hb' : b = v := by
                simp only [List.head?_cons, Option.mem_def,
                  Option.some.injEq] at hb
                exact hb.symm
              rw [hb']
              exact ihq (x, v) (minEntry_mem _ _ hmin) a ha
            · intro e he w hw
              rw [hvals, List.getLast?_concat] at hw
              have hw' : w = v := by
                simp only [Option.some.injEq] at hw
                exact hw.symm
              rw [hw']
              exact H j (Nat.lt_of_succ_le hj) x v hmin e he
  have hfin := (key (totalFuel cfg) (le_refl _)).1
  unfold run
  exact hfin

/-- Witness for the amended monotonicity claim: the one-cell run satisfies
the causal-candidate condition (discharged by evaluation), and its
extraction order is non-decreasing. -/
theorem extractionOrder_monotone_witness :
    List.Chain' (· ≤ ·) ((run cfgW rtQ).trace.map Prod.snd) := by
  apply extractionOrder_monotone_of_causal cfgW rtQ
  intro j hj x v hmin e he
  have h2 : totalFuel cfgW = 2 := rfl
  rw [h2] at hj
  interval_cases j
  · have hq :
        (step cfgW rtQ (runner cfgW rtQ 0 (initState cfgW))).queue = [] := by
      decide
    rw [hq] at he
    cases he
  · have hn : minEntry (runner cfgW rtQ 1 (initState cfgW)).queue = none := by
      decide
    rw [hn] at hmin
    cases hmin

end ITKFastMarching
